import Mathlib

/-!
Verification of the unreferenced-state-group finder (`src/main.rs`).

The program loads a forest of "state groups" from a database into a
`BTreeMap<i64, Entry>`, iteratively fetches state groups that are referenced
by loaded entries but not yet present ("closure completion"), propagates the
`is_referenced` flag up `prev_state_group` chains, and finally reports every
group left unreferenced.

The embedding below models:
  * `Entry` and the `BTreeMap<i64, Entry>` (as an association list built in
    ascending key order, the way `BTreeMap` stores it);
  * the row-merging loops of `get_from_db` / `get_missing_from_db`, with the
    database abstracted to a finite list of wire rows (one row per
    `(state_group, next)` pair, exactly the shape the SQL produces);
  * the closure loop of `main` (lines 178-221), including the per-round
    "Failed to find N groups" bookkeeping;
  * the propagation pass of `main` (lines 227-244), with the in-loop
    `map.get_mut(&sg).unwrap()` modelled as a fallible lookup whose failure
    aborts the pass, and the unbounded `while let` loop given explicit fuel;
  * the reporting pass of `main` (lines 246-257).

Machine integers: state group ids are `i64`; the program only compares ids
(no arithmetic), so they are embedded as `Int` directly.
-/

namespace StateGroups

/-- One in-memory record, translated from `struct Entry` in `src/main.rs`:
the state groups that have this one as their `prev_group`, the group this one
points to (if any), and whether an event references this group. -/
structure Entry where
  next_state_groups : List Int
  prev_state_group : Option Int
  is_referenced : Bool
deriving DecidableEq

/-- Translation of `#[derive(Default)]` for `Entry`. -/
def defaultEntry : Entry := ⟨[], none, false⟩

/-- The in-memory `BTreeMap<i64, Entry>`, modelled as an association list
kept in ascending key order. -/
abbrev GraphStore := List (Int × Entry)

/-- Map lookup (`map.get(&k)` / `map[&k]` before the panic on `None`). -/
def lookupEntry (s : GraphStore) (k : Int) : Option Entry :=
  (s.find? (fun p => p.1 == k)).map Prod.snd

/-- Key set snapshot (`map.keys()`), in storage order. -/
def keysOf (s : GraphStore) : List Int := s.map Prod.fst

/-- Translation of `map.entry(k).or_default()` followed by an in-place
update `f` of the entry: insert a default entry at the sorted position if the
key is absent, then apply `f` to the entry stored at `k`. -/
def upsertWith (k : Int) (f : Entry → Entry) : GraphStore → GraphStore
  | [] => [(k, f defaultEntry)]
  | (k', e) :: rest =>
    if k < k' then (k, f defaultEntry) :: (k', e) :: rest
    else if k = k' then (k', f e) :: rest
    else (k', e) :: upsertWith k f rest

/-- One wire row produced by the SQL queries: the state group id, one
optional `next` state group (a group whose `prev_state_group` is `id`), the
optional `prev` state group, and whether an event references the group.
Several rows may share the same `id` (one per `next` edge). -/
structure Row where
  id : Int
  next : Option Int
  prev : Option Int
  is_referenced : Bool
deriving DecidableEq

/-- The row-merging body shared by `get_from_db` and `get_missing_from_db`:
`entry(state_group).or_default()`, push the `next` group if present, then
overwrite `prev_state_group` and `is_referenced` with the row's values. -/
def mergeRow (m : GraphStore) (r : Row) : GraphStore :=
  upsertWith r.id (fun e =>
    { next_state_groups := e.next_state_groups ++ r.next.toList
      prev_state_group := r.prev
      is_referenced := r.is_referenced }) m

/-- Translation of `get_from_db`: fold the in-scope rows (the `room_id`
filter is abstracted as the choice of row list) into a fresh map. -/
def get_from_db (rows : List Row) : GraphStore := rows.foldl mergeRow []

/-- Translation of `get_missing_from_db`: for each requested id in order,
merge every database row for that id into a fresh map.  An id with no rows
in `db` contributes nothing (the spec's NodeSource contract: absence of a
record means the id is confirmed not to exist in the store). -/
def get_missing_from_db (db : List Row) (missing : List Int) : GraphStore :=
  missing.foldl (fun m sg => (db.filter (fun r => r.id == sg)).foldl mergeRow m) []

/-- The ids referenced by an entry: its children list and its parent. -/
def refsOf (e : Entry) : List Int :=
  e.next_state_groups ++ e.prev_state_group.toList

/-- The references of one entry that are absent from the store, in the order
the closure loop pushes them (`next_state_groups` first, then `prev`). -/
def entryMissing (m : GraphStore) (e : Entry) : List Int :=
  e.next_state_groups.filter (fun n => (lookupEntry m n).isNone) ++
    e.prev_state_group.toList.filter (fun p => (lookupEntry m p).isNone)

/-- The `for sg in &added` collection loop of the closure round.  The code
indexes `map[sg]`, which panics when `sg` is absent; that failure is modelled
as `none`. -/
def collectMissing (m : GraphStore) : List Int → Option (List Int)
  | [] => some []
  | sg :: rest =>
    match lookupEntry m sg with
    | none => none
    | some e => (collectMissing m rest).map (fun l => entryMissing m e ++ l)

/-- Sorted duplicate-free insertion, the building block used to model
`missing.sort_unstable(); missing.dedup()`. -/
def insertSortedDedup (x : Int) : List Int → List Int
  | [] => [x]
  | y :: ys =>
    if x < y then x :: y :: ys
    else if x = y then y :: ys
    else y :: insertSortedDedup x ys

/-- Translation of `missing.sort_unstable(); missing.dedup()`: the sorted
duplicate-free list with the same members. -/
def sortDedup (l : List Int) : List Int := l.foldr insertSortedDedup []

/-- One closure round's `missing` list: collect absent references of the
`added` set, sort and deduplicate. -/
def computeMissing (m : GraphStore) (added : List Int) : Option (List Int) :=
  (collectMissing m added).map sortDedup

/-- Observable data of one closure round: the deduplicated `missing` list
that was fetched, the keys the fetch returned (`added` for the next round,
`Got N from DB`), and the requested ids the fetch failed to return
(`Failed to find N groups`). -/
structure RoundInfo where
  missing : List Int
  resolvedKeys : List Int
  unresolved : List Int
deriving DecidableEq

/-- Translation of `map.extend(updated.into_iter())`: insert every pair,
replacing on key collision. -/
def extendStore (m upd : GraphStore) : GraphStore :=
  upd.foldl (fun acc p => upsertWith p.1 (fun _ => p.2) acc) m

/-- One iteration of the closure loop in `main` (lines 180-221): compute the
missing references of `added`; stop when none, otherwise fetch them, record
the round, and continue with the fetched keys as the new `added` set. -/
def closureStep (db : List Row) (m : GraphStore) (added : List Int) :
    Option (GraphStore ⊕ GraphStore × List Int × RoundInfo) :=
  match computeMissing m added with
  | none => none
  | some missing =>
    if missing.isEmpty then some (Sum.inl m)
    else
      let updated := get_missing_from_db db missing
      let added' := keysOf updated
      let unresolved := missing.filter (fun x => !(added'.contains x))
      some (Sum.inr (extendStore m updated, added', ⟨missing, added', unresolved⟩))

/-- The closure loop, iterated with explicit fuel (the Rust `loop` is
unbounded; termination is proved separately).  Returns the closed map and
the per-round records. -/
def closureLoop (db : List Row) : Nat → GraphStore → List Int → List RoundInfo →
    Option (GraphStore × List RoundInfo)
  | 0, _, _, _ => none
  | fuel+1, m, added, acc =>
    match closureStep db m added with
    | none => none
    | some (Sum.inl mDone) => some (mDone, acc)
    | some (Sum.inr (m', added', ri)) => closureLoop db fuel m' added' (acc ++ [ri])

/-- The closure phase of `main`: bulk load, then loop starting from
`added = map.keys()`. -/
def runClosure (initRows db : List Row) (fuel : Nat) :
    Option (GraphStore × List RoundInfo) :=
  let m := get_from_db initRows
  closureLoop db fuel m (keysOf m) []

/-- Translation of `entry.is_referenced = true` through `map.get_mut(&c)`:
mark the entry stored at key `c`. -/
def markRef (s : GraphStore) (c : Int) : GraphStore :=
  s.map (fun p => if p.1 = c then (p.1, { p.2 with is_referenced := true }) else p)

/-- Why a parent-chain walk stopped: the walked-to entry had no parent, the
walked-to entry was already referenced, or the cursor id had no entry (the
point where `map.get_mut(&sg).unwrap()` panics). -/
inductive WalkStop
  | noParent
  | alreadyLive
  | absentParent (id : Int)
deriving DecidableEq

/-- Result of a fuelled walk. -/
inductive WalkOut
  | stopped (s : GraphStore) (why : WalkStop)
  | outOfFuel (s : GraphStore)
deriving DecidableEq

/-- Translation of the `while let Some(sg) = next.take()` walk of the
propagation pass: look up the cursor, stop if the entry is already
referenced, otherwise mark it and advance to its `prev_state_group`. -/
def walk : Nat → GraphStore → Option Int → WalkOut
  | _, s, none => .stopped s .noParent
  | 0, s, some _ => .outOfFuel s
  | fuel+1, s, some c =>
    match lookupEntry s c with
    | none => .stopped s (.absentParent c)
    | some e =>
      if e.is_referenced then .stopped s .alreadyLive
      else walk fuel (markRef s c) e.prev_state_group

/-- Failures of the propagation pass: a panicking map lookup (`unwrap` on a
missing key) or walk fuel exhaustion (an artefact of the embedding, proved
unreachable). -/
inductive PropFail
  | missingEntry (id : Int)
  | fuelExhausted
deriving DecidableEq

/-- The outer propagation loop of `main` (lines 227-244) over a snapshot of
the key list: skip unreferenced entries, otherwise walk up from the entry's
parent.  Each walk gets fuel `s.length + 1`, which the termination lemmas
show is always sufficient. -/
def propagate : GraphStore → List Int → Except PropFail GraphStore
  | s, [] => .ok s
  | s, k :: ks =>
    match lookupEntry s k with
    | none => .error (.missingEntry k)
    | some e =>
      if e.is_referenced then
        match walk (s.length + 1) s e.prev_state_group with
        | .stopped _ (.absentParent i) => .error (.missingEntry i)
        | .stopped s₁ .noParent => propagate s₁ ks
        | .stopped s₁ .alreadyLive => propagate s₁ ks
        | .outOfFuel _ => .error .fuelExhausted
      else propagate s ks

/-- The whole propagation pass: iterate over the snapshot
`map.keys().cloned().collect::<Vec<_>>()`. -/
def propagateAll (s : GraphStore) : Except PropFail GraphStore :=
  propagate s (keysOf s)

/-- The ids the reporter emits (lines 246-257): every key whose entry is not
referenced, in map iteration order. -/
def reportIds (s : GraphStore) : List Int :=
  (s.filter (fun p => !p.2.is_referenced)).map Prod.fst

/-- The `total` counter of the report loop. -/
def reportTotal (s : GraphStore) : Nat := s.countP (fun p => !p.2.is_referenced)

/-- What the program prints at the end of a run: `Total state groups: N`
(line 223) and `Found N unreferenced groups` (line 257). -/
structure FinalReport where
  totalGroups : Nat
  unreferenced : Nat
deriving DecidableEq

/-- The whole pipeline: closure, propagation, report. -/
def runAll (initRows db : List Row) (fuel : Nat) :
    Option (Except PropFail (GraphStore × List RoundInfo × FinalReport)) :=
  match runClosure initRows db fuel with
  | none => none
  | some (m, rounds) =>
    some (match propagateAll m with
      | .error e => .error e
      | .ok m' => .ok (m', rounds, ⟨m'.length, reportTotal m'⟩))

/-- Referenced flag of the entry stored at `k` (`false` when absent). -/
def refdB (s : GraphStore) (k : Int) : Bool :=
  ((lookupEntry s k).map Entry.is_referenced).getD false

/-- Whether the store has an entry for `k`. -/
def hasKeyB (s : GraphStore) (k : Int) : Bool := (lookupEntry s k).isSome

/-- Parent pointer of the entry stored at `k` (`none` when absent). -/
def prevOf (s : GraphStore) (k : Int) : Option Int :=
  (lookupEntry s k).bind Entry.prev_state_group

/-- One parent-edge step. -/
def prevStep (s : GraphStore) (a b : Int) : Prop := prevOf s a = some b

/-- The repeated parent walk from `m` reaches `n` (in zero or more steps). -/
def Reaches (s : GraphStore) (m n : Int) : Prop :=
  Relation.ReflTransGen (prevStep s) m n

/-- The parent relation is acyclic. -/
def Acyclic (s : GraphStore) : Prop :=
  ∀ k, ¬ Relation.TransGen (prevStep s) k k

/-- Decidable edge-closedness: every stored entry's parent pointer has an
entry in the store. -/
def closedB (s : GraphStore) : Bool :=
  s.all (fun p => match p.2.prev_state_group with
    | none => true
    | some q => hasKeyB s q)

/-- Modelled from the spec: the "running total" of dangling references the
spec says is accumulated across closure rounds (section 4.2 step 7 and
section 7).  The source keeps no such accumulator; this definition follows
the spec's words so the reporting claim can be compared with the code. -/
def specDanglingTotal (rounds : List RoundInfo) : Nat :=
  (rounds.map (fun ri => ri.unresolved.length)).sum

/-- Number of entries not yet marked referenced; the termination measure of
one propagation walk. -/
def unmarked (s : GraphStore) : Nat := s.countP (fun p => !p.2.is_referenced)

/-- Number of database rows whose id has no entry in the store yet; the
termination measure of the closure loop. -/
def dbRowsLeft (db : List Row) (m : GraphStore) : Nat :=
  db.countP (fun r => (lookupEntry m r.id).isNone)

/-- Entries that agree on the parent pointer, the referenced flag, and the
set (though possibly not the list) of children. -/
def EntryEquiv (a b : Entry) : Prop :=
  a.prev_state_group = b.prev_state_group ∧ a.is_referenced = b.is_referenced ∧
    ∀ x, x ∈ a.next_state_groups ↔ x ∈ b.next_state_groups

/-- Stores with identical key sequences whose entries agree up to
`EntryEquiv`. -/
def StoreEquiv (s t : GraphStore) : Prop :=
  List.Forall₂ (fun p q => p.1 = q.1 ∧ EntryEquiv p.2 q.2) s t

/-! ### Basic lemmas about lookup and keys -/

theorem lookupEntry_isSome_iff {s : GraphStore} {k : Int} :
    (lookupEntry s k).isSome = true ↔ k ∈ keysOf s := by
  unfold lookupEntry keysOf
  rcases hf : s.find? (fun p => p.1 == k) with _ | p
  · rw [hf]
    simp only [Option.map_none', Option.isSome_none]
    refine iff_of_false (by simp) ?_
    intro h
    rcases List.mem_map.mp h with ⟨q, hq, hqk⟩
    have hsome : (s.find? (fun p => p.1 == k)).isSome = true :=
      List.find?_isSome.mpr ⟨q, hq, by simpa using hqk⟩
    rw [hf] at hsome
    cases hsome
  · rw [hf]
    simp only [Option.map_some', Option.isSome_some, true_iff]
    exact List.mem_map.mpr
      ⟨p, List.mem_of_find?_eq_some hf, by simpa using List.find?_some hf⟩

theorem lookupEntry_eq_none_iff {s : GraphStore} {k : Int} :
    lookupEntry s k = none ↔ k ∉ keysOf s := by
  rw [← Option.not_isSome_iff_eq_none]
  exact not_congr (by simpa using lookupEntry_isSome_iff)

theorem lookupEntry_mem {s : GraphStore} {k : Int} {e : Entry}
    (h : lookupEntry s k = some e) : (k, e) ∈ s := by
  unfold lookupEntry at h
  rcases Option.map_eq_some'.mp h with ⟨p, hp, hpe⟩
  have hmem := List.mem_of_find?_eq_some hp
  have hpk : p.1 = k := by simpa using List.find?_some hp
  have : p = (k, e) := by
    cases p; simp_all
  simpa [this] using hmem

theorem lookupEntry_isSome_of_eq {s : GraphStore} {k : Int} {e : Entry}
    (h : lookupEntry s k = some e) : (lookupEntry s k).isSome = true := by
  simp [h]

/-! ### Lemmas about upsertWith -/

theorem lookupEntry_upsertWith_ne (m : GraphStore) (k : Int) (f : Entry → Entry)
    {j : Int} (hj : j ≠ k) :
    lookupEntry (upsertWith k f m) j = lookupEntry m j := by
  induction m with
  | nil =>
    have hb : (k == j) = false := by simpa using Ne.symm hj
    simp [upsertWith, lookupEntry, List.find?, hb]
  | cons p rest ih =>
    obtain ⟨k', e⟩ := p
    unfold upsertWith
    by_cases h1 : k < k'
    · simp only [if_pos h1]
      simp [lookupEntry, List.find?_cons, Ne.symm hj]
    · by_cases h2 : k = k'
      · simp only [if_neg h1, if_pos h2]
        subst h2
        simp [lookupEntry, List.find?_cons, Ne.symm hj]
      · simp only [if_neg h1, if_neg h2]
        by_cases h3 : k' = j
        · subst h3
          simp [lookupEntry, List.find?_cons]
        · simp only [lookupEntry, List.find?_cons] at *
          have hb : (k' == j) = false := by simpa using h3
          simpa [hb] using ih

theorem lookupEntry_upsertWith_self (m : GraphStore) (k : Int) (f : Entry → Entry) :
    ∃ e₀, lookupEntry (upsertWith k f m) k = some (f e₀) := by
  induction m with
  | nil => exact ⟨defaultEntry, by simp [upsertWith, lookupEntry, List.find?]⟩
  | cons p rest ih =>
    obtain ⟨k', e⟩ := p
    unfold upsertWith
    by_cases h1 : k < k'
    · exact ⟨defaultEntry, by simp [if_pos h1, lookupEntry, List.find?_cons]⟩
    · by_cases h2 : k = k'
      · refine ⟨e, ?_⟩
        subst h2
        simp [if_neg h1, lookupEntry, List.find?_cons]
      · rcases ih with ⟨e₀, he₀⟩
        refine ⟨e₀, ?_⟩
        have hne : (k' == k) = false := by
          simp only [beq_eq_false_iff_ne]
          exact fun h => h2 h.symm
        simp only [if_neg h1, if_neg h2, lookupEntry, List.find?_cons, hne]
        exact he₀

theorem isSome_upsertWith_of_isSome (m : GraphStore) (k : Int) (f : Entry → Entry)
    {j : Int} (hj : (lookupEntry m j).isSome = true) :
    (lookupEntry (upsertWith k f m) j).isSome = true := by
  by_cases h : j = k
  · subst h
    rcases lookupEntry_upsertWith_self m j f with ⟨e₀, he₀⟩
    simp [he₀]
  · rw [lookupEntry_upsertWith_ne m k f h]
    exact hj

theorem mem_keysOf_upsertWith {m : GraphStore} {k j : Int} {f : Entry → Entry} :
    j ∈ keysOf (upsertWith k f m) ↔ j = k ∨ j ∈ keysOf m := by
  constructor
  · intro h
    by_cases hj : j = k
    · exact Or.inl hj
    · refine Or.inr ?_
      rw [← lookupEntry_isSome_iff] at h ⊢
      rwa [lookupEntry_upsertWith_ne m k f hj] at h
  · intro h
    rw [← lookupEntry_isSome_iff]
    rcases h with h | h
    · subst h
      rcases lookupEntry_upsertWith_self m j f with ⟨e₀, he₀⟩
      simp [he₀]
    · exact isSome_upsertWith_of_isSome m k f (lookupEntry_isSome_iff.mpr h)

/-! ### Lemmas about extendStore -/

theorem extendStore_nil (m : GraphStore) : extendStore m [] = m := rfl

theorem extendStore_cons (m : GraphStore) (p : Int × Entry) (rest : GraphStore) :
    extendStore m (p :: rest) = extendStore (upsertWith p.1 (fun _ => p.2) m) rest := rfl

theorem lookupEntry_extendStore_not_mem {u m : GraphStore} {k : Int}
    (h : k ∉ keysOf u) : lookupEntry (extendStore m u) k = lookupEntry m k := by
  induction u generalizing m with
  | nil => rfl
  | cons p rest ih =>
    have hk1 : k ≠ p.1 := by
      intro he
      exact h (by simp [keysOf, he])
    have hkr : k ∉ keysOf rest := by
      intro hm
      refine h ?_
      simp only [keysOf, List.map_cons, List.mem_cons]
      exact Or.inr hm
    rw [extendStore_cons, ih hkr]
    exact lookupEntry_upsertWith_ne m p.1 _ hk1

theorem isSome_extendStore_of_isSome {u m : GraphStore} {k : Int}
    (h : (lookupEntry m k).isSome = true) :
    (lookupEntry (extendStore m u) k).isSome = true := by
  induction u generalizing m with
  | nil => exact h
  | cons p rest ih =>
    rw [extendStore_cons]
    exact ih (isSome_upsertWith_of_isSome m p.1 _ h)

theorem isSome_extendStore_of_mem {u m : GraphStore} {k : Int}
    (h : k ∈ keysOf u) : (lookupEntry (extendStore m u) k).isSome = true := by
  induction u generalizing m with
  | nil => simp [keysOf] at h
  | cons p rest ih =>
    rw [extendStore_cons]
    have h' : k = p.1 ∨ k ∈ keysOf rest := by
      have hh := h
      simp only [keysOf, List.map_cons, List.mem_cons] at hh
      exact hh
    rcases h' with h1 | h1
    · refine isSome_extendStore_of_isSome ?_
      rw [h1]
      rcases lookupEntry_upsertWith_self m p.1 (fun _ => p.2) with ⟨e₀, he₀⟩
      simp [he₀]
    · exact ih h1

/-! ### Lemmas about sortDedup and the missing set of a round -/

theorem mem_insertSortedDedup {x y : Int} {l : List Int} :
    y ∈ insertSortedDedup x l ↔ y = x ∨ y ∈ l := by
  induction l with
  | nil => simp [insertSortedDedup]
  | cons z zs ih =>
    unfold insertSortedDedup
    split_ifs with h1 h2
    · simp
    · subst h2
      simp only [List.mem_cons]
      tauto
    · simp only [List.mem_cons, ih]
      tauto

theorem mem_sortDedup {x : Int} {l : List Int} : x ∈ sortDedup l ↔ x ∈ l := by
  induction l with
  | nil => simp [sortDedup]
  | cons y ys ih =>
    unfold sortDedup at *
    simp only [List.foldr_cons, mem_insertSortedDedup, List.mem_cons, ih]

theorem mem_entryMissing {m : GraphStore} {e : Entry} {r : Int} :
    r ∈ entryMissing m e ↔ r ∈ refsOf e ∧ lookupEntry m r = none := by
  unfold entryMissing refsOf
  simp only [List.mem_append, List.mem_filter, Option.isNone_iff_eq_none]
  tauto

theorem collectMissing_isSome {m : GraphStore} {added : List Int}
    (h : ∀ sg ∈ added, (lookupEntry m sg).isSome = true) :
    ∃ l, collectMissing m added = some l := by
  induction added with
  | nil => exact ⟨[], rfl⟩
  | cons sg rest ih =>
    rcases Option.isSome_iff_exists.mp (h sg (List.mem_cons_self sg rest)) with ⟨e, he⟩
    rcases ih (fun x hx => h x (List.mem_cons_of_mem sg hx)) with ⟨l, hl⟩
    exact ⟨entryMissing m e ++ l, by simp [collectMissing, he, hl]⟩

theorem collectMissing_complete {m : GraphStore} {added : List Int} {l : List Int}
    (h : collectMissing m added = some l) :
    ∀ sg ∈ added, ∀ e, lookupEntry m sg = some e →
      ∀ r ∈ refsOf e, lookupEntry m r = none → r ∈ l := by
  induction added generalizing l with
  | nil => intro sg hsg; cases hsg
  | cons sg0 rest ih =>
    intro sg hsg e he r hr hrn
    unfold collectMissing at h
    rcases hl0 : lookupEntry m sg0 with _ | e0
    · rw [hl0] at h; cases h
    · rw [hl0] at h
      rcases hrec : collectMissing m rest with _ | lrest
      · rw [hrec] at h; cases h
      · rw [hrec] at h
        simp only [Option.map_some', Option.some.injEq] at h
        rcases List.mem_cons.mp hsg with h1 | h1
        · subst h1
          rw [hl0] at he
          cases he
          rw [← h]
          exact List.mem_append_left _ (mem_entryMissing.mpr ⟨hr, hrn⟩)
        · rw [← h]
          exact List.mem_append_right _ (ih hrec sg h1 e he r hr hrn)

theorem collectMissing_absent {m : GraphStore} {added : List Int} {l : List Int}
    (h : collectMissing m added = some l) :
    ∀ r ∈ l, lookupEntry m r = none := by
  induction added generalizing l with
  | nil =>
    cases h
    intro r hr; cases hr
  | cons sg0 rest ih =>
    intro r hr
    unfold collectMissing at h
    rcases hl0 : lookupEntry m sg0 with _ | e0
    · rw [hl0] at h; cases h
    · rw [hl0] at h
      rcases hrec : collectMissing m rest with _ | lrest
      · rw [hrec] at h; cases h
      · rw [hrec] at h
        simp only [Option.map_some', Option.some.injEq] at h
        rw [← h] at hr
        rcases List.mem_append.mp hr with h1 | h1
        · exact (mem_entryMissing.mp h1).2
        · exact ih hrec r h1

theorem computeMissing_nil (m : GraphStore) : computeMissing m [] = some [] := rfl

theorem computeMissing_isSome {m : GraphStore} {added : List Int}
    (h : ∀ sg ∈ added, (lookupEntry m sg).isSome = true) :
    ∃ l, computeMissing m added = some l := by
  rcases collectMissing_isSome h with ⟨l, hl⟩
  exact ⟨sortDedup l, by simp [computeMissing, hl]⟩

theorem computeMissing_complete {m : GraphStore} {added : List Int} {l : List Int}
    (h : computeMissing m added = some l) :
    ∀ sg ∈ added, ∀ e, lookupEntry m sg = some e →
      ∀ r ∈ refsOf e, lookupEntry m r = none → r ∈ l := by
  unfold computeMissing at h
  rcases hc : collectMissing m added with _ | l0
  · rw [hc] at h; cases h
  · rw [hc] at h
    simp only [Option.map_some', Option.some.injEq] at h
    intro sg hsg e he r hr hrn
    rw [← h]
    exact mem_sortDedup.mpr (collectMissing_complete hc sg hsg e he r hr hrn)

theorem computeMissing_absent {m : GraphStore} {added : List Int} {l : List Int}
    (h : computeMissing m added = some l) :
    ∀ r ∈ l, lookupEntry m r = none := by
  unfold computeMissing at h
  rcases hc : collectMissing m added with _ | l0
  · rw [hc] at h; cases h
  · rw [hc] at h
    simp only [Option.map_some', Option.some.injEq] at h
    intro r hr
    rw [← h] at hr
    exact collectMissing_absent hc r (mem_sortDedup.mp hr)

/-! ### Lemmas about get_missing_from_db -/

theorem mem_keysOf_mergeRow {m : GraphStore} {r : Row} {k : Int} :
    k ∈ keysOf (mergeRow m r) ↔ k = r.id ∨ k ∈ keysOf m := by
  unfold mergeRow
  exact mem_keysOf_upsertWith

theorem mem_keysOf_foldl_mergeRow {rows : List Row} {m : GraphStore} {k : Int} :
    k ∈ keysOf (rows.foldl mergeRow m) ↔ (∃ r ∈ rows, r.id = k) ∨ k ∈ keysOf m := by
  induction rows generalizing m with
  | nil => simp
  | cons r rest ih =>
    simp only [List.foldl_cons, ih, mem_keysOf_mergeRow, List.mem_cons]
    constructor
    · rintro (⟨r', hr', hid⟩ | (h | h))
      · exact Or.inl ⟨r', Or.inr hr', hid⟩
      · exact Or.inl ⟨r, Or.inl rfl, h.symm⟩
      · exact Or.inr h
    · rintro (⟨r', hr' | hr', hid⟩ | h)
      · subst hr'
        exact Or.inr (Or.inl hid.symm)
      · exact Or.inl ⟨r', hr', hid⟩
      · exact Or.inr (Or.inr h)

theorem mem_keysOf_missing_foldl {db : List Row} {missing : List Int}
    {m : GraphStore} {k : Int}
    (h : k ∈ keysOf (missing.foldl
      (fun m sg => (db.filter (fun r => r.id == sg)).foldl mergeRow m) m)) :
    k ∈ keysOf m ∨ (k ∈ missing ∧ ∃ r ∈ db, r.id = k) := by
  induction missing generalizing m with
  | nil => exact Or.inl h
  | cons sg rest ih =>
    simp only [List.foldl_cons] at h
    rcases ih h with h1 | h1
    · rcases mem_keysOf_foldl_mergeRow.mp h1 with h2 | h2
      · rcases h2 with ⟨r, hr, hid⟩
        have hrdb := List.mem_filter.mp hr
        have hsg : r.id = sg := by simpa using hrdb.2
        refine Or.inr ⟨?_, r, hrdb.1, hid⟩
        rw [← hid, hsg]
        exact List.mem_cons_self sg rest
      · exact Or.inl h2
    · exact Or.inr ⟨List.mem_cons_of_mem sg h1.1, h1.2⟩

theorem keysOf_get_missing_subset {db : List Row} {missing : List Int} {k : Int}
    (h : k ∈ keysOf (get_missing_from_db db missing)) :
    k ∈ missing ∧ ∃ r ∈ db, r.id = k := by
  unfold get_missing_from_db at h
  rcases mem_keysOf_missing_foldl h with h1 | h1
  · cases h1
  · exact h1

theorem mem_keysOf_missing_foldl_of_mem {db : List Row} {missing : List Int}
    {m : GraphStore} {k : Int} (h : k ∈ keysOf m) :
    k ∈ keysOf (missing.foldl
      (fun m sg => (db.filter (fun r => r.id == sg)).foldl mergeRow m) m) := by
  induction missing generalizing m with
  | nil => exact h
  | cons sg rest ih =>
    simp only [List.foldl_cons]
    exact ih (mem_keysOf_foldl_mergeRow.mpr (Or.inr h))

theorem mem_keysOf_missing_foldl_of_row {db : List Row} {missing : List Int}
    {m : GraphStore} {sg : Int} (hm : sg ∈ missing) (hr : ∃ r ∈ db, r.id = sg) :
    sg ∈ keysOf (missing.foldl
      (fun m sg => (db.filter (fun r => r.id == sg)).foldl mergeRow m) m) := by
  induction missing generalizing m with
  | nil => cases hm
  | cons sg0 rest ih =>
    simp only [List.foldl_cons]
    rcases List.mem_cons.mp hm with h1 | h1
    · subst h1
      refine mem_keysOf_missing_foldl_of_mem ?_
      rcases hr with ⟨r, hrdb, hid⟩
      refine mem_keysOf_foldl_mergeRow.mpr (Or.inl ⟨r, ?_, hid⟩)
      exact List.mem_filter.mpr ⟨hrdb, by simpa using hid⟩
    · exact ih h1

theorem mem_keysOf_get_missing {db : List Row} {missing : List Int} {sg : Int}
    (hm : sg ∈ missing) (hr : ∃ r ∈ db, r.id = sg) :
    sg ∈ keysOf (get_missing_from_db db missing) :=
  mem_keysOf_missing_foldl_of_row hm hr

/-! ### A strict counting helper -/

theorem countP_lt_of_strict {α : Type} {l : List α} {p q : α → Bool}
    (hpq : ∀ x ∈ l, q x = true → p x = true)
    {x : α} (hx : x ∈ l) (hpx : p x = true) (hqx : q x = false) :
    l.countP q < l.countP p := by
  induction l with
  | nil => cases hx
  | cons a rest ih =>
    rw [List.countP_cons, List.countP_cons]
    rcases List.mem_cons.mp hx with h1 | h1
    · subst h1
      have hmono : rest.countP q ≤ rest.countP p :=
        List.countP_mono_left (fun y hy => hpq y (List.mem_cons_of_mem x hy))
      have e1 : (if q x then 1 else 0) = 0 := by simp [hqx]
      have e2 : (if p x then 1 else 0) = 1 := by simp [hpx]
      rw [e1, e2]
      omega
    · have hstep : rest.countP q < rest.countP p :=
        ih (fun y hy => hpq y (List.mem_cons_of_mem a hy)) h1
      have hhead : (if q a then 1 else 0) ≤ (if p a then 1 else 0) := by
        by_cases hqa : q a = true
        · have hpa := hpq a (List.mem_cons_self a rest) hqa
          simp [hqa, hpa]
        · have hqa2 : q a = false := by simpa using hqa
          simp [hqa2]
      omega

/-! ### Lemmas about closedB -/

theorem closedB_spec {s : GraphStore} (h : closedB s = true) :
    ∀ a b, prevOf s a = some b → hasKeyB s b = true := by
  intro a b hab
  unfold prevOf at hab
  rcases hl : lookupEntry s a with _ | e
  · rw [hl] at hab; cases hab
  · rw [hl] at hab
    simp only [Option.some_bind] at hab
    have hmem := lookupEntry_mem hl
    have hall := (List.all_eq_true.mp h) _ hmem
    simpa [closedB, hab] using hall

/-! ### Lemmas about markRef -/

theorem lookupEntry_cons (a : Int) (b : Entry) (t : GraphStore) (k : Int) :
    lookupEntry ((a, b) :: t) k = if a = k then some b else lookupEntry t k := by
  unfold lookupEntry
  by_cases h : a = k
  · have hb : (a == k) = true := by simpa using h
    simp [List.find?_cons, hb, h]
  · have hb : (a == k) = false := by simpa using h
    simp [List.find?_cons, hb, h]

theorem markRef_cons (a : Int) (b : Entry) (t : GraphStore) (c : Int) :
    markRef ((a, b) :: t) c =
      (if a = c then (a, { b with is_referenced := true }) else (a, b)) :: markRef t c := by
  unfold markRef
  rfl

theorem lookupEntry_markRef (s : GraphStore) (c k : Int) :
    lookupEntry (markRef s c) k =
      (lookupEntry s k).map
        (fun e => if k = c then { e with is_referenced := true } else e) := by
  induction s with
  | nil => rfl
  | cons p rest ih =>
    obtain ⟨a, b⟩ := p
    rw [markRef_cons]
    by_cases hac : a = c
    · simp only [if_pos hac]
      rw [lookupEntry_cons, lookupEntry_cons]
      by_cases hak : a = k
      · have hkc : k = c := by rw [← hak, hac]
        simp [hak, hkc]
      · simp [hak, ih]
    · simp only [if_neg hac]
      rw [lookupEntry_cons, lookupEntry_cons]
      by_cases hak : a = k
      · have hkc : ¬(k = c) := by rw [← hak]; exact hac
        simp [hak, hkc]
      · simp [hak, ih]

theorem prevOf_markRef (s : GraphStore) (c k : Int) :
    prevOf (markRef s c) k = prevOf s k := by
  unfold prevOf
  rw [lookupEntry_markRef]
  rcases lookupEntry s k with _ | e
  · rfl
  · by_cases h : k = c <;> simp [h]

theorem hasKeyB_markRef (s : GraphStore) (c k : Int) :
    hasKeyB (markRef s c) k = hasKeyB s k := by
  unfold hasKeyB
  rw [lookupEntry_markRef]
  rcases lookupEntry s k with _ | e <;> rfl

theorem refdB_markRef_of_ne {s : GraphStore} {c k : Int} (h : k ≠ c) :
    refdB (markRef s c) k = refdB s k := by
  unfold refdB
  rw [lookupEntry_markRef]
  rcases lookupEntry s k with _ | e
  · rfl
  · simp [h]

theorem refdB_markRef_self {s : GraphStore} {c : Int} (h : hasKeyB s c = true) :
    refdB (markRef s c) c = true := by
  unfold refdB
  rw [lookupEntry_markRef]
  rcases hl : lookupEntry s c with _ | e
  · rw [hasKeyB, hl] at h; cases h
  · simp

theorem hasKeyB_of_refdB {s : GraphStore} {k : Int} (h : refdB s k = true) :
    hasKeyB s k = true := by
  unfold refdB at h
  unfold hasKeyB
  rcases hl : lookupEntry s k with _ | e
  · rw [hl] at h
    simp at h
  · rfl

theorem refdB_markRef_mono {s : GraphStore} {c k : Int} (h : refdB s k = true) :
    refdB (markRef s c) k = true := by
  by_cases hkc : k = c
  · subst hkc
    exact refdB_markRef_self (hasKeyB_of_refdB h)
  · rw [refdB_markRef_of_ne hkc]
    exact h

theorem length_markRef (s : GraphStore) (c : Int) :
    (markRef s c).length = s.length := by
  unfold markRef
  exact List.length_map s _

theorem unmarked_markRef_lt {s : GraphStore} {c : Int} {e : Entry}
    (hl : lookupEntry s c = some e) (he : e.is_referenced = false) :
    unmarked (markRef s c) < unmarked s := by
  unfold unmarked markRef
  rw [List.countP_map]
  refine countP_lt_of_strict ?_ (lookupEntry_mem hl) ?_ ?_
  · intro x hx hq
    simp only [Function.comp_apply] at hq
    by_cases hxc : x.1 = c
    · simp [hxc] at hq
    · simpa [hxc] using hq
  · simp [he]
  · simp only [Function.comp_apply]
    simp

theorem unmarked_le_length (s : GraphStore) : unmarked s ≤ s.length :=
  List.countP_le_length _

/-! ### Accessor lemmas -/

theorem prevOf_eq_of_lookup {s : GraphStore} {k : Int} {e : Entry}
    (h : lookupEntry s k = some e) : prevOf s k = e.prev_state_group := by
  unfold prevOf
  rw [h]
  rfl

theorem refdB_eq_of_lookup {s : GraphStore} {k : Int} {e : Entry}
    (h : lookupEntry s k = some e) : refdB s k = e.is_referenced := by
  unfold refdB
  rw [h]
  rfl

theorem hasKeyB_of_lookup {s : GraphStore} {k : Int} {e : Entry}
    (h : lookupEntry s k = some e) : hasKeyB s k = true := by
  unfold hasKeyB
  rw [h]
  rfl

theorem lookup_of_hasKeyB {s : GraphStore} {k : Int} (h : hasKeyB s k = true) :
    ∃ e, lookupEntry s k = some e := by
  unfold hasKeyB at h
  exact Option.isSome_iff_exists.mp h

/-! ### Walk lemmas -/

theorem walk_stopped_facts : ∀ {fuel : Nat} {s : GraphStore} {c : Option Int}
    {s' : GraphStore} {why : WalkStop}, walk fuel s c = .stopped s' why →
    (∀ k, prevOf s' k = prevOf s k) ∧ (∀ k, hasKeyB s' k = hasKeyB s k) ∧
      s'.length = s.length ∧ (∀ k, refdB s k = true → refdB s' k = true) := by
  intro fuel
  induction fuel with
  | zero =>
    intro s c s' why h
    cases c with
    | none =>
      cases h
      exact ⟨fun _ => rfl, fun _ => rfl, rfl, fun _ hk => hk⟩
    | some c0 => cases h
  | succ f ih =>
    intro s c s' why h
    cases c with
    | none =>
      cases h
      exact ⟨fun _ => rfl, fun _ => rfl, rfl, fun _ hk => hk⟩
    | some c0 =>
      unfold walk at h
      rcases hl : lookupEntry s c0 with _ | e
      · rw [hl] at h
        cases h
        exact ⟨fun _ => rfl, fun _ => rfl, rfl, fun _ hk => hk⟩
      · rw [hl] at h
        have h2 : (if e.is_referenced = true then WalkOut.stopped s WalkStop.alreadyLive
            else walk f (markRef s c0) e.prev_state_group) = WalkOut.stopped s' why := h
        rcases hr : e.is_referenced with _ | _
        · rw [hr] at h2
          simp only [Bool.false_eq_true, if_false] at h2
          rcases ih h2 with ⟨hprev, hkey, hlen, hmono⟩
          refine ⟨?_, ?_, ?_, ?_⟩
          · intro k
            rw [hprev k, prevOf_markRef]
          · intro k
            rw [hkey k, hasKeyB_markRef]
          · rw [hlen, length_markRef]
          · intro k hk
            exact hmono k (refdB_markRef_mono hk)
        · rw [hr] at h2
          simp only [if_true] at h2
          cases h2
          exact ⟨fun _ => rfl, fun _ => rfl, rfl, fun _ hk => hk⟩

theorem walk_marks_closed : ∀ {fuel : Nat} {s : GraphStore} {c : Option Int}
    {s' : GraphStore} {why : WalkStop}, walk fuel s c = .stopped s' why →
    ((∀ x, refdB s x = false → refdB s' x = true →
        ∀ q, prevOf s x = some q → hasKeyB s q = true → refdB s' q = true) ∧
      (∀ p, c = some p → hasKeyB s p = true → refdB s' p = true)) := by
  intro fuel
  induction fuel with
  | zero =>
    intro s c s' why h
    cases c with
    | none =>
      cases h
      exact ⟨fun x h1 h2 => absurd h2 (by simp [h1]), fun p hp => by cases hp⟩
    | some c0 => cases h
  | succ f ih =>
    intro s c s' why h
    cases c with
    | none =>
      cases h
      exact ⟨fun x h1 h2 => absurd h2 (by simp [h1]), fun p hp => by cases hp⟩
    | some c0 =>
      unfold walk at h
      rcases hl : lookupEntry s c0 with _ | e
      · rw [hl] at h
        cases h
        refine ⟨fun x h1 h2 => absurd h2 (by simp [h1]), ?_⟩
        intro p hp hkey
        cases hp
        rw [hasKeyB, hl] at hkey
        cases hkey
      · rw [hl] at h
        have h2 : (if e.is_referenced = true then WalkOut.stopped s WalkStop.alreadyLive
            else walk f (markRef s c0) e.prev_state_group) = WalkOut.stopped s' why := h
        rcases hr : e.is_referenced with _ | _
        · rw [hr] at h2
          simp only [Bool.false_eq_true, if_false] at h2
          rcases ih h2 with ⟨ih1, ih2⟩
          have hmono := (walk_stopped_facts h2).2.2.2
          refine ⟨?_, ?_⟩
          · intro x hx1 hx2 q hq hqk
            by_cases hxc : x = c0
            · subst hxc
              have hpq : e.prev_state_group = some q := by
                rw [prevOf_eq_of_lookup hl] at hq
                exact hq
              refine ih2 q hpq ?_
              rw [hasKeyB_markRef]
              exact hqk
            · refine ih1 x ?_ hx2 q ?_ ?_
              · rw [refdB_markRef_of_ne hxc]
                exact hx1
              · rw [prevOf_markRef]
                exact hq
              · rw [hasKeyB_markRef]
                exact hqk
          · intro p hp _
            cases hp
            refine hmono c0 ?_
            exact refdB_markRef_self (hasKeyB_of_lookup hl)
        · rw [hr] at h2
          simp only [if_true] at h2
          cases h2
          refine ⟨fun x h1 h2 => absurd h2 (by simp [h1]), ?_⟩
          intro p hp _
          cases hp
          rw [refdB_eq_of_lookup hl]
          exact hr

theorem walk_sound {S : Int → Prop} : ∀ {fuel : Nat} {s : GraphStore}
    {c : Option Int} {s' : GraphStore} {why : WalkStop},
    walk fuel s c = .stopped s' why →
    (∀ a b, S a → prevOf s a = some b → S b) →
    (∀ p, c = some p → S p) →
    (∀ x, refdB s x = true → S x) →
    ∀ x, refdB s' x = true → S x := by
  intro fuel
  induction fuel with
  | zero =>
    intro s c s' why h hstep hc hinv
    cases c with
    | none =>
      cases h
      exact hinv
    | some c0 => cases h
  | succ f ih =>
    intro s c s' why h hstep hc hinv
    cases c with
    | none =>
      cases h
      exact hinv
    | some c0 =>
      unfold walk at h
      rcases hl : lookupEntry s c0 with _ | e
      · rw [hl] at h
        cases h
        exact hinv
      · rw [hl] at h
        have h2 : (if e.is_referenced = true then WalkOut.stopped s WalkStop.alreadyLive
            else walk f (markRef s c0) e.prev_state_group) = WalkOut.stopped s' why := h
        rcases hr : e.is_referenced with _ | _
        · rw [hr] at h2
          simp only [Bool.false_eq_true, if_false] at h2
          have hSc0 : S c0 := hc c0 rfl
          refine ih h2 ?_ ?_ ?_
          · intro a b ha hab
            rw [prevOf_markRef] at hab
            exact hstep a b ha hab
          · intro p hp
            refine hstep c0 p hSc0 ?_
            rw [prevOf_eq_of_lookup hl]
            exact hp
          · intro x hx
            by_cases hxc : x = c0
            · subst hxc
              exact hSc0
            · rw [refdB_markRef_of_ne hxc] at hx
              exact hinv x hx
        · rw [hr] at h2
          simp only [if_true] at h2
          cases h2
          exact hinv

theorem walk_stopped_of_fuel : ∀ {fuel : Nat} {s : GraphStore} {c : Option Int},
    unmarked s + 1 ≤ fuel → ∃ s' why, walk fuel s c = .stopped s' why := by
  intro fuel
  induction fuel with
  | zero =>
    intro s c h
    omega
  | succ f ih =>
    intro s c h
    cases c with
    | none => exact ⟨s, .noParent, rfl⟩
    | some c0 =>
      rcases hl : lookupEntry s c0 with _ | e
      · refine ⟨s, .absentParent c0, ?_⟩
        unfold walk
        rw [hl]
      · rcases hr : e.is_referenced with _ | _
        · have hlt := unmarked_markRef_lt hl hr
          rcases ih (s := markRef s c0) (c := e.prev_state_group) (by omega) with
            ⟨s', why, hw⟩
          refine ⟨s', why, ?_⟩
          unfold walk
          rw [hl]
          show (if e.is_referenced = true then WalkOut.stopped s WalkStop.alreadyLive
              else walk f (markRef s c0) e.prev_state_group) = WalkOut.stopped s' why
          simp only [hr, Bool.false_eq_true, if_false]
          exact hw
        · refine ⟨s, .alreadyLive, ?_⟩
          unfold walk
          rw [hl]
          show (if e.is_referenced = true then WalkOut.stopped s WalkStop.alreadyLive
              else walk f (markRef s c0) e.prev_state_group) =
              WalkOut.stopped s WalkStop.alreadyLive
          simp [hr]

theorem walk_closed_stop : ∀ {fuel : Nat} {s : GraphStore} {c : Option Int},
    (∀ a b, prevOf s a = some b → hasKeyB s b = true) →
    (∀ p, c = some p → hasKeyB s p = true) →
    unmarked s + 1 ≤ fuel →
    ∃ s' why, walk fuel s c = .stopped s' why ∧
      (why = .noParent ∨ why = .alreadyLive) := by
  intro fuel
  induction fuel with
  | zero =>
    intro s c _ _ h
    omega
  | succ f ih =>
    intro s c hclosed hc h
    cases c with
    | none => exact ⟨s, .noParent, rfl, Or.inl rfl⟩
    | some c0 =>
      rcases lookup_of_hasKeyB (hc c0 rfl) with ⟨e, hl⟩
      rcases hr : e.is_referenced with _ | _
      · have hlt := unmarked_markRef_lt hl hr
        have hclosed1 : ∀ a b, prevOf (markRef s c0) a = some b →
            hasKeyB (markRef s c0) b = true := by
          intro a b hab
          rw [prevOf_markRef] at hab
          rw [hasKeyB_markRef]
          exact hclosed a b hab
        have hc1 : ∀ p, e.prev_state_group = some p →
            hasKeyB (markRef s c0) p = true := by
          intro p hp
          rw [hasKeyB_markRef]
          refine hclosed c0 p ?_
          rw [prevOf_eq_of_lookup hl]
          exact hp
        rcases ih hclosed1 hc1 (by omega) with ⟨s', why, hw, hwhy⟩
        refine ⟨s', why, ?_, hwhy⟩
        unfold walk
        rw [hl]
        show (if e.is_referenced = true then WalkOut.stopped s WalkStop.alreadyLive
            else walk f (markRef s c0) e.prev_state_group) = WalkOut.stopped s' why
        simp only [hr, Bool.false_eq_true, if_false]
        exact hw
      · refine ⟨s, .alreadyLive, ?_, Or.inr rfl⟩
        unfold walk
        rw [hl]
        show (if e.is_referenced = true then WalkOut.stopped s WalkStop.alreadyLive
            else walk f (markRef s c0) e.prev_state_group) =
            WalkOut.stopped s WalkStop.alreadyLive
        simp [hr]

/-! ### Propagation pass lemmas -/

theorem propagate_facts : ∀ {ks : List Int} {s s' : GraphStore},
    propagate s ks = .ok s' →
    (∀ k, prevOf s' k = prevOf s k) ∧ (∀ k, hasKeyB s' k = hasKeyB s k) ∧
      s'.length = s.length ∧ (∀ k, refdB s k = true → refdB s' k = true) := by
  intro ks
  induction ks with
  | nil =>
    intro s s' h
    cases h
    exact ⟨fun _ => rfl, fun _ => rfl, rfl, fun _ hk => hk⟩
  | cons k ks ih =>
    intro s s' h
    unfold propagate at h
    rcases hl : lookupEntry s k with _ | e
    · rw [hl] at h
      cases h
    · rw [hl] at h
      have h2 : (if e.is_referenced = true then
          (match walk (s.length + 1) s e.prev_state_group with
            | .stopped _ (.absentParent i) => Except.error (PropFail.missingEntry i)
            | .stopped s₁ .noParent => propagate s₁ ks
            | .stopped s₁ .alreadyLive => propagate s₁ ks
            | .outOfFuel _ => Except.error PropFail.fuelExhausted)
          else propagate s ks) = Except.ok s' := h
      rcases hr : e.is_referenced with _ | _
      · rw [hr] at h2
        simp only [Bool.false_eq_true, if_false] at h2
        exact ih h2
      · rw [hr] at h2
        simp only [if_true] at h2
        rcases hw : walk (s.length + 1) s e.prev_state_group with ⟨s₁, _ | _ | i⟩ | ⟨s₁⟩
        all_goals rw [hw] at h2
        · have h3 : propagate s₁ ks = Except.ok s' := h2
          rcases walk_stopped_facts hw with ⟨wprev, wkey, wlen, wmono⟩
          rcases ih h3 with ⟨pprev, pkey, plen, pmono⟩
          refine ⟨?_, ?_, ?_, ?_⟩
          · intro j
            rw [pprev j, wprev j]
          · intro j
            rw [pkey j, wkey j]
          · rw [plen, wlen]
          · intro j hj
            exact pmono j (wmono j hj)
        · have h3 : propagate s₁ ks = Except.ok s' := h2
          rcases walk_stopped_facts hw with ⟨wprev, wkey, wlen, wmono⟩
          rcases ih h3 with ⟨pprev, pkey, plen, pmono⟩
          refine ⟨?_, ?_, ?_, ?_⟩
          · intro j
            rw [pprev j, wprev j]
          · intro j
            rw [pkey j, wkey j]
          · rw [plen, wlen]
          · intro j hj
            exact pmono j (wmono j hj)
        · exact absurd h2 (by simp)
        · exact absurd h2 (by simp)

theorem propagate_complete : ∀ {ks : List Int} {s s' : GraphStore},
    propagate s ks = .ok s' →
    ((∀ x, refdB s x = false → refdB s' x = true →
        ∀ q, prevOf s x = some q → hasKeyB s q = true → refdB s' q = true) ∧
      (∀ k, k ∈ ks → refdB s' k = true →
        ∀ q, prevOf s k = some q → hasKeyB s q = true → refdB s' q = true)) := by
  intro ks
  induction ks with
  | nil =>
    intro s s' h
    cases h
    refine ⟨?_, ?_⟩
    · intro x h1 h2
      rw [h1] at h2
      cases h2
    · intro k hk
      cases hk
  | cons k ks ih =>
    intro s s' h
    unfold propagate at h
    rcases hl : lookupEntry s k with _ | e
    · rw [hl] at h
      cases h
    · rw [hl] at h
      have h2 : (if e.is_referenced = true then
          (match walk (s.length + 1) s e.prev_state_group with
            | .stopped _ (.absentParent i) => Except.error (PropFail.missingEntry i)
            | .stopped s₁ .noParent => propagate s₁ ks
            | .stopped s₁ .alreadyLive => propagate s₁ ks
            | .outOfFuel _ => Except.error PropFail.fuelExhausted)
          else propagate s ks) = Except.ok s' := h
      rcases hr : e.is_referenced with _ | _
      · rw [hr] at h2
        simp only [Bool.false_eq_true, if_false] at h2
        rcases ih h2 with ⟨ihA, ihB⟩
        refine ⟨ihA, ?_⟩
        intro j hj h3 q hq hqk
        rcases List.mem_cons.mp hj with hjk | hjk
        · subst hjk
          refine ihA j ?_ h3 q hq hqk
          rw [refdB_eq_of_lookup hl]
          exact hr
        · exact ihB j hjk h3 q hq hqk
      · rw [hr] at h2
        simp only [if_true] at h2
        rcases hw : walk (s.length + 1) s e.prev_state_group with ⟨s₁, _ | _ | i⟩ | ⟨s₁⟩
        all_goals rw [hw] at h2
        · have h3 : propagate s₁ ks = Except.ok s' := h2
          rcases walk_stopped_facts hw with ⟨wprev, wkey, wlen, wmono⟩
          rcases walk_marks_closed hw with ⟨wmarks, wcursor⟩
          rcases propagate_facts h3 with ⟨pprev, pkey, plen, pmono⟩
          rcases ih h3 with ⟨ihA, ihB⟩
          have goalA : ∀ x, refdB s x = false → refdB s' x = true →
              ∀ q, prevOf s x = some q → hasKeyB s q = true → refdB s' q = true := by
            intro x hx1 hx2 q hq hqk
            rcases hx3 : refdB s₁ x with _ | _
            · refine ihA x hx3 hx2 q ?_ ?_
              · rw [wprev x]
                exact hq
              · rw [wkey q]
                exact hqk
            · exact pmono q (wmarks x hx1 hx3 q hq hqk)
          refine ⟨goalA, ?_⟩
          intro j hj h4 q hq hqk
          rcases List.mem_cons.mp hj with hjk | hjk
          · subst hjk
            have hq2 : e.prev_state_group = some q := by
              rw [prevOf_eq_of_lookup hl] at hq
              exact hq
            exact pmono q (wcursor q hq2 hqk)
          · refine ihB j hjk h4 q ?_ ?_
            · rw [wprev j]
              exact hq
            · rw [wkey q]
              exact hqk
        · have h3 : propagate s₁ ks = Except.ok s' := h2
          rcases walk_stopped_facts hw with ⟨wprev, wkey, wlen, wmono⟩
          rcases walk_marks_closed hw with ⟨wmarks, wcursor⟩
          rcases propagate_facts h3 with ⟨pprev, pkey, plen, pmono⟩
          rcases ih h3 with ⟨ihA, ihB⟩
          have goalA : ∀ x, refdB s x = false → refdB s' x = true →
              ∀ q, prevOf s x = some q → hasKeyB s q = true → refdB s' q = true := by
            intro x hx1 hx2 q hq hqk
            rcases hx3 : refdB s₁ x with _ | _
            · refine ihA x hx3 hx2 q ?_ ?_
              · rw [wprev x]
                exact hq
              · rw [wkey q]
                exact hqk
            · exact pmono q (wmarks x hx1 hx3 q hq hqk)
          refine ⟨goalA, ?_⟩
          intro j hj h4 q hq hqk
          rcases List.mem_cons.mp hj with hjk | hjk
          · subst hjk
            have hq2 : e.prev_state_group = some q := by
              rw [prevOf_eq_of_lookup hl] at hq
              exact hq
            exact pmono q (wcursor q hq2 hqk)
          · refine ihB j hjk h4 q ?_ ?_
            · rw [wprev j]
              exact hq
            · rw [wkey q]
              exact hqk
        · exact absurd h2 (by simp)
        · exact absurd h2 (by simp)

theorem propagate_sound {S : Int → Prop} : ∀ {ks : List Int} {s s' : GraphStore},
    propagate s ks = .ok s' →
    (∀ a b, S a → prevOf s a = some b → S b) →
    (∀ x, refdB s x = true → S x) →
    ∀ x, refdB s' x = true → S x := by
  intro ks
  induction ks with
  | nil =>
    intro s s' h hstep hinv
    cases h
    exact hinv
  | cons k ks ih =>
    intro s s' h hstep hinv
    unfold propagate at h
    rcases hl : lookupEntry s k with _ | e
    · rw [hl] at h
      cases h
    · rw [hl] at h
      have h2 : (if e.is_referenced = true then
          (match walk (s.length + 1) s e.prev_state_group with
            | .stopped _ (.absentParent i) => Except.error (PropFail.missingEntry i)
            | .stopped s₁ .noParent => propagate s₁ ks
            | .stopped s₁ .alreadyLive => propagate s₁ ks
            | .outOfFuel _ => Except.error PropFail.fuelExhausted)
          else propagate s ks) = Except.ok s' := h
      rcases hr : e.is_referenced with _ | _
      · rw [hr] at h2
        simp only [Bool.false_eq_true, if_false] at h2
        exact ih h2 hstep hinv
      · rw [hr] at h2
        simp only [if_true] at h2
        have hSk : S k := by
          refine hinv k ?_
          rw [refdB_eq_of_lookup hl]
          exact hr
        have hcursor : ∀ p, e.prev_state_group = some p → S p := by
          intro p hp
          refine hstep k p hSk ?_
          rw [prevOf_eq_of_lookup hl]
          exact hp
        rcases hw : walk (s.length + 1) s e.prev_state_group with ⟨s₁, _ | _ | i⟩ | ⟨s₁⟩
        all_goals rw [hw] at h2
        · have h3 : propagate s₁ ks = Except.ok s' := h2
          rcases walk_stopped_facts hw with ⟨wprev, wkey, wlen, wmono⟩
          have hinv1 : ∀ x, refdB s₁ x = true → S x :=
            walk_sound hw hstep hcursor hinv
          refine ih h3 ?_ hinv1
          intro a b ha hab
          rw [wprev a] at hab
          exact hstep a b ha hab
        · have h3 : propagate s₁ ks = Except.ok s' := h2
          rcases walk_stopped_facts hw with ⟨wprev, wkey, wlen, wmono⟩
          have hinv1 : ∀ x, refdB s₁ x = true → S x :=
            walk_sound hw hstep hcursor hinv
          refine ih h3 ?_ hinv1
          intro a b ha hab
          rw [wprev a] at hab
          exact hstep a b ha hab
        · exact absurd h2 (by simp)
        · exact absurd h2 (by simp)

theorem propagate_ok : ∀ {ks : List Int} {s : GraphStore},
    (∀ a b, prevOf s a = some b → hasKeyB s b = true) →
    (∀ k, k ∈ ks → hasKeyB s k = true) →
    ∃ s', propagate s ks = .ok s' := by
  intro ks
  induction ks with
  | nil =>
    intro s _ _
    exact ⟨s, rfl⟩
  | cons k ks ih =>
    intro s hclosed hks
    rcases lookup_of_hasKeyB (hks k (List.mem_cons_self k ks)) with ⟨e, hl⟩
    rcases hr : e.is_referenced with _ | _
    · rcases ih (s := s) hclosed (fun j hj => hks j (List.mem_cons_of_mem k hj)) with
        ⟨s', hs'⟩
      refine ⟨s', ?_⟩
      unfold propagate
      rw [hl]
      show (if e.is_referenced = true then _ else propagate s ks) = Except.ok s'
      simp only [hr, Bool.false_eq_true, if_false]
      exact hs'
    · have hcursor : ∀ p, e.prev_state_group = some p → hasKeyB s p = true := by
        intro p hp
        refine hclosed k p ?_
        rw [prevOf_eq_of_lookup hl]
        exact hp
      have hfuel : unmarked s + 1 ≤ s.length + 1 := by
        have := unmarked_le_length s
        omega
      rcases walk_closed_stop hclosed hcursor hfuel with ⟨s₁, why, hw, hwhy⟩
      rcases walk_stopped_facts hw with ⟨wprev, wkey, wlen, wmono⟩
      have hclosed1 : ∀ a b, prevOf s₁ a = some b → hasKeyB s₁ b = true := by
        intro a b hab
        rw [wprev a] at hab
        rw [wkey b]
        exact hclosed a b hab
      have hks1 : ∀ j, j ∈ ks → hasKeyB s₁ j = true := by
        intro j hj
        rw [wkey j]
        exact hks j (List.mem_cons_of_mem k hj)
      rcases ih (s := s₁) hclosed1 hks1 with ⟨s', hs'⟩
      refine ⟨s', ?_⟩
      unfold propagate
      rw [hl]
      show (if e.is_referenced = true then
          (match walk (s.length + 1) s e.prev_state_group with
            | .stopped _ (.absentParent i) => Except.error (PropFail.missingEntry i)
            | .stopped s₁ .noParent => propagate s₁ ks
            | .stopped s₁ .alreadyLive => propagate s₁ ks
            | .outOfFuel _ => Except.error PropFail.fuelExhausted)
          else propagate s ks) = Except.ok s'
      rw [hr]
      simp only [if_true]
      rw [hw]
      rcases hwhy with hwhy | hwhy
      · rw [hwhy]
        exact hs'
      · rw [hwhy]
        exact hs'

theorem propagate_ne_fuelExhausted : ∀ {ks : List Int} {s : GraphStore},
    propagate s ks ≠ .error .fuelExhausted := by
  intro ks
  induction ks with
  | nil =>
    intro s h
    cases h
  | cons k ks ih =>
    intro s h
    unfold propagate at h
    rcases hl : lookupEntry s k with _ | e
    · rw [hl] at h
      cases h
    · rw [hl] at h
      have h2 : (if e.is_referenced = true then
          (match walk (s.length + 1) s e.prev_state_group with
            | .stopped _ (.absentParent i) => Except.error (PropFail.missingEntry i)
            | .stopped s₁ .noParent => propagate s₁ ks
            | .stopped s₁ .alreadyLive => propagate s₁ ks
            | .outOfFuel _ => Except.error PropFail.fuelExhausted)
          else propagate s ks) = Except.error PropFail.fuelExhausted := h
      rcases hr : e.is_referenced with _ | _
      · rw [hr] at h2
        simp only [Bool.false_eq_true, if_false] at h2
        exact ih h2
      · rw [hr] at h2
        simp only [if_true] at h2
        have hfuel : unmarked s + 1 ≤ s.length + 1 := by
          have := unmarked_le_length s
          omega
        rcases walk_stopped_of_fuel (s := s) (c := e.prev_state_group) hfuel with
          ⟨s₁, why, hw⟩
        rw [hw] at h2
        rcases why with _ | _ | i
        · exact ih h2
        · exact ih h2
        · cases h2

theorem hasKeyB_iff_mem {s : GraphStore} {k : Int} :
    hasKeyB s k = true ↔ k ∈ keysOf s := by
  unfold hasKeyB
  exact lookupEntry_isSome_iff

theorem acyclic_of_no_step {s : GraphStore} (h : ∀ a b, ¬ prevStep s a b) :
    Acyclic s := by
  intro k hk
  cases hk with
  | single h1 => exact h _ _ h1
  | tail h1 h2 => exact h _ _ h2

theorem prevOf_single_none (a : Int) :
    prevOf [((1 : Int), (⟨[], none, true⟩ : Entry))] a = none := by
  unfold prevOf
  rw [lookupEntry_cons]
  by_cases h : (1 : Int) = a
  · simp [h]
  · have h0 : lookupEntry ([] : GraphStore) a = none := rfl
    simp [h, h0]

theorem acyclic_single : Acyclic [((1 : Int), (⟨[], none, true⟩ : Entry))] := by
  refine acyclic_of_no_step ?_
  intro a b hab
  unfold prevStep at hab
  rw [prevOf_single_none] at hab
  cases hab

/-! ## Claims -/

/-- C1: after the propagation pass runs on a closed graph with an acyclic
parent relation, a node of the Graph Store ends marked `is_referenced`
exactly when it was directly referenced at the start, or some node whose
repeated parent walk reaches it was directly referenced. -/
theorem propagation_correct (s : GraphStore) (hclosed : closedB s = true)
    (_hacyc : Acyclic s) :
    ∃ s', propagateAll s = .ok s' ∧
      ∀ n, n ∈ keysOf s →
        (refdB s' n = true ↔
          (refdB s n = true ∨
            ∃ m, m ∈ keysOf s ∧ Reaches s m n ∧ refdB s m = true)) := by
  have hcl := closedB_spec hclosed
  have hks : ∀ k, k ∈ keysOf s → hasKeyB s k = true := fun k hk =>
    hasKeyB_iff_mem.mpr hk
  rcases propagate_ok hcl hks with ⟨s', hs'⟩
  refine ⟨s', hs', ?_⟩
  have pf := propagate_facts hs'
  have pc := propagate_complete hs'
  have hmem_of_refd : ∀ x, refdB s x = true → x ∈ keysOf s := fun x hx =>
    hasKeyB_iff_mem.mp (hasKeyB_of_refdB hx)
  have hup : ∀ x q, refdB s' x = true → prevOf s x = some q →
      refdB s' q = true := by
    intro x q hx hq
    have hxkeys : x ∈ keysOf s := by
      have h1 : hasKeyB s' x = true := hasKeyB_of_refdB hx
      rw [pf.2.1 x] at h1
      exact hasKeyB_iff_mem.mp h1
    exact pc.2 x hxkeys hx q hq (hcl x q hq)
  intro n _
  constructor
  · intro hn'
    refine Or.inr ?_
    refine propagate_sound
      (S := fun j => ∃ m, m ∈ keysOf s ∧ Reaches s m j ∧ refdB s m = true)
      hs' ?_ ?_ n hn'
    · rintro a b ⟨m, hm, hr2, hrefd2⟩ hab
      exact ⟨m, hm, Relation.ReflTransGen.tail hr2 hab, hrefd2⟩
    · intro x hx
      exact ⟨x, hmem_of_refd x hx, Relation.ReflTransGen.refl, hx⟩
  · rintro (h | ⟨m, _, hr, hrefd⟩)
    · exact pf.2.2.2 n h
    · have hall : ∀ y, Reaches s m y → refdB s' y = true := by
        intro y hy
        induction hy with
        | refl => exact pf.2.2.2 m hrefd
        | tail _ hbc ih => exact hup _ _ ih hbc
      exact hall n hr

/-- Witness for C1: the hypotheses hold at a concrete one-node store and the
conclusion follows by the theorem. -/
theorem propagation_correct_witness :
    closedB [((1 : Int), (⟨[], none, true⟩ : Entry))] = true ∧
      Acyclic [((1 : Int), (⟨[], none, true⟩ : Entry))] ∧
      ∃ s', propagateAll [((1 : Int), (⟨[], none, true⟩ : Entry))] = .ok s' ∧
        ∀ n, n ∈ keysOf [((1 : Int), (⟨[], none, true⟩ : Entry))] →
          (refdB s' n = true ↔
            (refdB [((1 : Int), (⟨[], none, true⟩ : Entry))] n = true ∨
              ∃ m, m ∈ keysOf [((1 : Int), (⟨[], none, true⟩ : Entry))] ∧
                Reaches [((1 : Int), (⟨[], none, true⟩ : Entry))] m n ∧
                refdB [((1 : Int), (⟨[], none, true⟩ : Entry))] m = true)) :=
  ⟨by decide, acyclic_single,
    propagation_correct [((1 : Int), (⟨[], none, true⟩ : Entry))] (by decide)
      acyclic_single⟩

/-- C5: under the precondition that the parent relation of the closed store
is acyclic, the propagation pass terminates: every ancestor walk, given the
fuel the pass hands it, stops (at a node with no parent, at an already-live
node, or at an absent parent id, the three `WalkStop` cases), and the pass
never fails with fuel exhaustion. -/
theorem propagation_terminates (s : GraphStore) (_hacyc : Acyclic s) :
    (∀ c, ∃ s' why, walk (s.length + 1) s c = .stopped s' why) ∧
      propagateAll s ≠ .error .fuelExhausted := by
  refine ⟨?_, ?_⟩
  · intro c
    refine walk_stopped_of_fuel ?_
    have := unmarked_le_length s
    omega
  · exact propagate_ne_fuelExhausted

/-- Witness for C5: the acyclicity hypothesis holds at a concrete store and
the conclusion follows by the theorem. -/
theorem propagation_terminates_witness :
    Acyclic [((1 : Int), (⟨[], none, true⟩ : Entry))] ∧
      ((∀ c, ∃ s' why,
          walk ([((1 : Int), (⟨[], none, true⟩ : Entry))].length + 1)
            [((1 : Int), (⟨[], none, true⟩ : Entry))] c = .stopped s' why) ∧
        propagateAll [((1 : Int), (⟨[], none, true⟩ : Entry))] ≠
          .error .fuelExhausted) :=
  ⟨acyclic_single,
    propagation_terminates [((1 : Int), (⟨[], none, true⟩ : Entry))] acyclic_single⟩

theorem list_contains_iff {l : List Int} {a : Int} :
    l.contains a = true ↔ a ∈ l := by
  simp

/-! ### Closure loop lemmas -/

theorem closureStep_inl {db : List Row} {m : GraphStore} {added : List Int}
    {mDone : GraphStore}
    (hs : closureStep db m added = some (Sum.inl mDone)) :
    mDone = m ∧ computeMissing m added = some [] := by
  unfold closureStep at hs
  rcases hcm : computeMissing m added with _ | missing
  · rw [hcm] at hs
    cases hs
  · rw [hcm] at hs
    have hs2 : (if missing.isEmpty then some (Sum.inl m) else
        some (Sum.inr (extendStore m (get_missing_from_db db missing),
          keysOf (get_missing_from_db db missing),
          (⟨missing, keysOf (get_missing_from_db db missing),
            missing.filter
              (fun x => !((keysOf (get_missing_from_db db missing)).contains x))⟩ :
              RoundInfo)))) =
        some (Sum.inl mDone) := hs
    rcases he : missing.isEmpty with _ | _
    · rw [he] at hs2
      simp only [Bool.false_eq_true, if_false] at hs2
      cases hs2
    · rw [he] at hs2
      simp only [if_true, Option.some.injEq, Sum.inl.injEq] at hs2
      have hnil := List.isEmpty_iff.mp he
      subst hnil
      exact ⟨hs2.symm, rfl⟩

theorem closureStep_inr {db : List Row} {m : GraphStore} {added : List Int}
    {m₁ : GraphStore} {added1 : List Int} {ri : RoundInfo}
    (hs : closureStep db m added = some (Sum.inr (m₁, added1, ri))) :
    ∃ missing, computeMissing m added = some missing ∧ missing ≠ [] ∧
      m₁ = extendStore m (get_missing_from_db db missing) ∧
      added1 = keysOf (get_missing_from_db db missing) ∧
      ri = ⟨missing, keysOf (get_missing_from_db db missing),
        missing.filter
          (fun x => !((keysOf (get_missing_from_db db missing)).contains x))⟩ := by
  unfold closureStep at hs
  rcases hcm : computeMissing m added with _ | missing
  · rw [hcm] at hs
    cases hs
  · rw [hcm] at hs
    have hs2 : (if missing.isEmpty then some (Sum.inl m) else
        some (Sum.inr (extendStore m (get_missing_from_db db missing),
          keysOf (get_missing_from_db db missing),
          (⟨missing, keysOf (get_missing_from_db db missing),
            missing.filter
              (fun x => !((keysOf (get_missing_from_db db missing)).contains x))⟩ :
              RoundInfo)))) =
        some (Sum.inr (m₁, added1, ri)) := hs
    rcases he : missing.isEmpty with _ | _
    · rw [he] at hs2
      simp only [Bool.false_eq_true, if_false, Option.some.injEq, Sum.inr.injEq,
        Prod.mk.injEq] at hs2
      refine ⟨missing, rfl, ?_, hs2.1.symm, hs2.2.1.symm, hs2.2.2.symm⟩
      intro hnil
      rw [hnil] at he
      cases he
    · rw [he] at hs2
      simp only [if_true] at hs2
      cases hs2

theorem closureLoop_inv {db : List Row} : ∀ {fuel : Nat} {m : GraphStore}
    {added : List Int} {acc : List RoundInfo} {m' : GraphStore}
    {rounds : List RoundInfo},
    closureLoop db fuel m added acc = some (m', rounds) →
    (∀ k e, lookupEntry m k = some e → ∀ r, r ∈ refsOf e →
      (lookupEntry m r).isSome = true ∨ k ∈ added ∨ ∃ ri ∈ acc, r ∈ ri.unresolved) →
    (∀ k e, lookupEntry m' k = some e → ∀ r, r ∈ refsOf e →
      (lookupEntry m' r).isSome = true ∨ ∃ ri ∈ rounds, r ∈ ri.unresolved) := by
  intro fuel
  induction fuel with
  | zero =>
    intro m added acc m' rounds h
    cases h
  | succ f ih =>
    intro m added acc m' rounds h hinv
    unfold closureLoop at h
    rcases hs : closureStep db m added with _ | mDone | ⟨m₁, added1, ri⟩
    · rw [hs] at h
      cases h
    · rw [hs] at h
      have h2 : (some (mDone, acc) :
          Option (GraphStore × List RoundInfo)) = some (m', rounds) := h
      simp only [Option.some.injEq, Prod.mk.injEq] at h2
      rcases h2 with ⟨hm, hr⟩
      rcases closureStep_inl hs with ⟨hmd, hcm⟩
      have goal0 : ∀ k e, lookupEntry m k = some e → ∀ r, r ∈ refsOf e →
          (lookupEntry m r).isSome = true ∨ ∃ ri ∈ acc, r ∈ ri.unresolved := by
        intro k e hk r hr
        rcases hinv k e hk r hr with h1 | h1 | h1
        · exact Or.inl h1
        · rcases h4 : lookupEntry m r with _ | er
          · exfalso
            have hmem := computeMissing_complete hcm k h1 e hk r hr h4
            cases hmem
          · exact Or.inl (by simp [h4])
        · exact Or.inr h1
      have hmm : m' = m := by
        rw [← hm]
        exact hmd
      have hracc : rounds = acc := hr.symm
      rw [hmm, hracc]
      exact goal0
    · rw [hs] at h
      have h2 : closureLoop db f m₁ added1 (acc ++ [ri]) = some (m', rounds) := h
      rcases closureStep_inr hs with ⟨missing, hcm, hne, hm₁, hadded1, hri⟩
      refine ih h2 ?_
      intro k e₁ hk r hr
      by_cases hku : k ∈ keysOf (get_missing_from_db db missing)
      · refine Or.inr (Or.inl ?_)
        rw [hadded1]
        exact hku
      · have hkold : lookupEntry m k = some e₁ := by
          rw [hm₁] at hk
          rwa [lookupEntry_extendStore_not_mem hku] at hk
        rcases hinv k e₁ hkold r hr with h1 | h1 | h1
        · refine Or.inl ?_
          rw [hm₁]
          exact isSome_extendStore_of_isSome h1
        · rcases h3 : lookupEntry m r with _ | er
          · have hrmiss := computeMissing_complete hcm k h1 e₁ hkold r hr h3
            by_cases hru : r ∈ keysOf (get_missing_from_db db missing)
            · refine Or.inl ?_
              rw [hm₁]
              exact isSome_extendStore_of_mem hru
            · refine Or.inr (Or.inr ?_)
              refine ⟨ri, List.mem_append_right acc (List.mem_singleton.mpr rfl), ?_⟩
              rw [hri]
              refine List.mem_filter.mpr ⟨hrmiss, ?_⟩
              simp only [Bool.not_eq_true']
              rcases hc : (keysOf (get_missing_from_db db missing)).contains r with _ | _
              · simp
              · exact absurd (list_contains_iff.mp hc) hru
          · refine Or.inl ?_
            rw [hm₁]
            exact isSome_extendStore_of_isSome (by simp [h3])
        · rcases h1 with ⟨ri0, hri0, hrri0⟩
          exact Or.inr (Or.inr ⟨ri0, List.mem_append_left _ hri0, hrri0⟩)

/-- C2: when the closure loop terminates, every id referenced by any node of
the final Graph Store (each child id and the parent id, if present) is
either itself a key of the store or was counted as unresolved in some round:
no referenced id is both absent and unaccounted. -/
theorem closure_fixpoint {initRows db : List Row} {fuel : Nat}
    {m' : GraphStore} {rounds : List RoundInfo}
    (h : runClosure initRows db fuel = some (m', rounds)) :
    ∀ k e, lookupEntry m' k = some e → ∀ r, r ∈ refsOf e →
      (lookupEntry m' r).isSome = true ∨ ∃ ri ∈ rounds, r ∈ ri.unresolved := by
  unfold runClosure at h
  refine closureLoop_inv h ?_
  intro k e hk r _
  refine Or.inr (Or.inl ?_)
  exact hasKeyB_iff_mem.mp (hasKeyB_of_lookup hk)

/-- Witness for C2: a concrete run with one dangling reference terminates
and the theorem applies to it. -/
theorem closure_fixpoint_witness :
    runClosure [⟨1, none, some 2, true⟩] [] 2 =
      some ([((1 : Int), (⟨[], some 2, true⟩ : Entry))], [⟨[2], [], [2]⟩]) ∧
      ∀ k e, lookupEntry [((1 : Int), (⟨[], some 2, true⟩ : Entry))] k = some e →
        ∀ r, r ∈ refsOf e →
          (lookupEntry [((1 : Int), (⟨[], some 2, true⟩ : Entry))] r).isSome = true ∨
            ∃ ri ∈ [(⟨[2], [], [2]⟩ : RoundInfo)], r ∈ ri.unresolved :=
  ⟨by decide,
    @closure_fixpoint [⟨1, none, some 2, true⟩] [] 2
      [((1 : Int), (⟨[], some 2, true⟩ : Entry))]
      [⟨[2], [], [2]⟩] (by decide)⟩

/-! ### Store equivalence lemmas and the merge of a single record -/

theorem storeEquiv_refl (s : GraphStore) : StoreEquiv s s := by
  induction s with
  | nil => exact List.Forall₂.nil
  | cons p rest ih =>
    exact List.Forall₂.cons ⟨rfl, rfl, rfl, fun x => Iff.rfl⟩ ih

theorem upsertWith_twice_equiv {k : Int} {f : Entry → Entry}
    (hff : ∀ e, EntryEquiv (f (f e)) (f e)) :
    ∀ m : GraphStore,
      StoreEquiv (upsertWith k f (upsertWith k f m)) (upsertWith k f m) := by
  intro m
  induction m with
  | nil =>
    have hstep : upsertWith k f ([] : GraphStore) = [(k, f defaultEntry)] := rfl
    rw [hstep]
    have hstep2 : upsertWith k f [(k, f defaultEntry)] =
        [(k, f (f defaultEntry))] := by
      simp [upsertWith]
    rw [hstep2]
    exact List.Forall₂.cons ⟨rfl, hff defaultEntry⟩ List.Forall₂.nil
  | cons p rest ih =>
    obtain ⟨k', e⟩ := p
    by_cases h1 : k < k'
    · have hstep : upsertWith k f ((k', e) :: rest) =
          (k, f defaultEntry) :: (k', e) :: rest := by
        simp [upsertWith, h1]
      rw [hstep]
      have hstep2 : upsertWith k f ((k, f defaultEntry) :: (k', e) :: rest) =
          (k, f (f defaultEntry)) :: (k', e) :: rest := by
        simp [upsertWith]
      rw [hstep2]
      exact List.Forall₂.cons ⟨rfl, hff defaultEntry⟩ (storeEquiv_refl _)
    · by_cases h2 : k = k'
      · subst h2
        have hstep : upsertWith k f ((k, e) :: rest) = (k, f e) :: rest := by
          simp [upsertWith]
        rw [hstep]
        have hstep2 : upsertWith k f ((k, f e) :: rest) = (k, f (f e)) :: rest := by
          simp [upsertWith]
        rw [hstep2]
        exact List.Forall₂.cons ⟨rfl, hff e⟩ (storeEquiv_refl _)
      · have hstep : upsertWith k f ((k', e) :: rest) =
            (k', e) :: upsertWith k f rest := by
          simp [upsertWith, h1, h2]
        rw [hstep]
        have hstep2 : upsertWith k f ((k', e) :: upsertWith k f rest) =
            (k', e) :: upsertWith k f (upsertWith k f rest) := by
          simp [upsertWith, h1, h2]
        rw [hstep2]
        exact List.Forall₂.cons ⟨rfl, rfl, rfl, fun x => Iff.rfl⟩ ih

/-! ## Claims about the record merge -/

/-- C6 counterexample: merging the same `NodeRecord` twice does not yield
the same Graph Store state as merging it once, because the child id is
pushed onto the children list a second time. -/
theorem upsert_idempotent_cex :
    mergeRow (mergeRow [] ⟨1, some 2, none, true⟩) ⟨1, some 2, none, true⟩ ≠
      mergeRow [] ⟨1, some 2, none, true⟩ := by
  decide

/-- C6 amended: merging the same record twice yields the same store up to a
duplicated child id: the key sequence, each entry's parent, referenced flag,
and set of children are those of a single merge. -/
theorem upsert_idempotent_upto_children (m : GraphStore) (r : Row) :
    StoreEquiv (mergeRow (mergeRow m r) r) (mergeRow m r) := by
  unfold mergeRow
  refine upsertWith_twice_equiv ?_ m
  intro e
  refine ⟨rfl, rfl, ?_⟩
  intro x
  simp only [List.mem_append]
  tauto

/-- C7 counterexample: two observations for the same id with differing
`prev` and `is_referenced` do not fail; the merge silently keeps the later
record's values. -/
theorem merge_conflict_overwrites_cex :
    ¬ (∀ (m : GraphStore) (r r' : Row), r.id = r'.id →
        r.prev ≠ r'.prev →
        (lookupEntry (mergeRow (mergeRow m r) r') r'.id).map
            (fun e => (e.prev_state_group, e.is_referenced)) ≠
          some (r'.prev, r'.is_referenced)) := by
  intro h
  exact h [] ⟨1, none, some 7, false⟩ ⟨1, none, some 8, true⟩ rfl (by decide)
    (by decide)

/-- C7 amended: the merge is last-write-wins on `prev_state_group` and
`is_referenced`: after merging a record, the stored values for its id are
exactly the record's values, whatever was stored before; re-merging
identical values is therefore a no-op on those fields, and differing values
are silently overwritten with no error. -/
theorem merge_last_write_wins (m : GraphStore) (r : Row) :
    (lookupEntry (mergeRow m r) r.id).map
      (fun e => (e.prev_state_group, e.is_referenced)) =
      some (r.prev, r.is_referenced) := by
  unfold mergeRow
  rcases lookupEntry_upsertWith_self m r.id _ with ⟨e₀, he₀⟩
  rw [he₀]
  rfl

/-! ### Termination of the closure loop -/

theorem closureStep_nil_added (db : List Row) (m : GraphStore) :
    closureStep db m [] = some (Sum.inl m) := rfl

theorem closureLoop_nil_added {db : List Row} {m : GraphStore}
    {acc : List RoundInfo} {fuel : Nat} (h : 1 ≤ fuel) :
    closureLoop db fuel m [] acc = some (m, acc) := by
  cases fuel with
  | zero => omega
  | succ f =>
    unfold closureLoop
    rw [closureStep_nil_added]

theorem isSome_of_extendStore_isSome {u m : GraphStore} {k : Int}
    (h : (lookupEntry (extendStore m u) k).isSome = true) :
    (lookupEntry m k).isSome = true ∨ k ∈ keysOf u := by
  by_cases hk : k ∈ keysOf u
  · exact Or.inr hk
  · rw [lookupEntry_extendStore_not_mem hk] at h
    exact Or.inl h

theorem dbRowsLeft_lt {db : List Row} {missing : List Int} {m : GraphStore}
    (habs : ∀ x ∈ missing, lookupEntry m x = none)
    {k : Int} (hk : k ∈ keysOf (get_missing_from_db db missing)) :
    dbRowsLeft db (extendStore m (get_missing_from_db db missing)) <
      dbRowsLeft db m := by
  rcases keysOf_get_missing_subset hk with ⟨hkmiss, r, hrdb, hrid⟩
  unfold dbRowsLeft
  refine countP_lt_of_strict ?_ hrdb ?_ ?_
  · intro x _ hq
    rcases ho : lookupEntry m x.id with _ | e
    · simp [ho]
    · exfalso
      have h1 : (lookupEntry m x.id).isSome = true := by simp [ho]
      have h2 := isSome_extendStore_of_isSome
        (u := get_missing_from_db db missing) h1
      rw [Option.isNone_iff_eq_none] at hq
      rw [hq] at h2
      cases h2
  · rw [hrid, habs k hkmiss]
    rfl
  · have h2 : (lookupEntry (extendStore m (get_missing_from_db db missing))
        r.id).isSome = true := by
      rw [hrid]
      exact isSome_extendStore_of_mem hk
    rcases Option.isSome_iff_exists.mp h2 with ⟨e, he⟩
    simp [he]

theorem dbRowsLeft_le_length (db : List Row) (m : GraphStore) :
    dbRowsLeft db m ≤ db.length :=
  List.countP_le_length _

theorem closureLoop_terminates {db : List Row} : ∀ {fuel : Nat} {m : GraphStore}
    {added : List Int} {acc : List RoundInfo},
    (∀ a ∈ added, (lookupEntry m a).isSome = true) →
    dbRowsLeft db m + 2 ≤ fuel →
    (closureLoop db fuel m added acc).isSome = true := by
  intro fuel
  induction fuel with
  | zero =>
    intro m added acc _ hfuel
    omega
  | succ f ih =>
    intro m added acc hadded hfuel
    rcases computeMissing_isSome hadded with ⟨missing, hcm⟩
    have hstep : closureStep db m added =
        (if missing.isEmpty then some (Sum.inl m) else
          some (Sum.inr (extendStore m (get_missing_from_db db missing),
            keysOf (get_missing_from_db db missing),
            ⟨missing, keysOf (get_missing_from_db db missing),
              missing.filter (fun x =>
                !((keysOf (get_missing_from_db db missing)).contains x))⟩))) := by
      unfold closureStep
      rw [hcm]
    rcases he : missing.isEmpty with _ | _
    · rw [he] at hstep
      simp only [Bool.false_eq_true, if_false] at hstep
      have hloop : closureLoop db (f + 1) m added acc =
          closureLoop db f (extendStore m (get_missing_from_db db missing))
            (keysOf (get_missing_from_db db missing))
            (acc ++ [⟨missing, keysOf (get_missing_from_db db missing),
              missing.filter (fun x =>
                !((keysOf (get_missing_from_db db missing)).contains x))⟩]) := by
        simp only [closureLoop, hstep]
      rw [hloop]
      rcases hku : keysOf (get_missing_from_db db missing) with _ | ⟨k0, krest⟩
      · rw [closureLoop_nil_added (show 1 ≤ f by omega)]
        rfl
      · have hk0 : k0 ∈ keysOf (get_missing_from_db db missing) := by
          rw [hku]
          exact List.mem_cons_self k0 krest
        have hlt := dbRowsLeft_lt (computeMissing_absent hcm) hk0
        refine ih ?_ (by omega)
        intro a ha
        refine isSome_extendStore_of_mem ?_
        rw [hku]
        exact ha
    · rw [he] at hstep
      simp only [if_true] at hstep
      have hloop : closureLoop db (f + 1) m added acc = some (m, acc) := by
        simp only [closureLoop, hstep]
      rw [hloop]
      rfl

/-! ## Claims about the closure loop -/

/-- C4 counterexample: it is not true that every fetch round strictly grows
the Graph Store; a run exists in which a round's fetch resolves nothing (all
requested ids are dangling), so the round neither stops the loop nor grows
the store. -/
theorem closure_round_growth_cex :
    ¬ (∀ (initRows db : List Row) (fuel : Nat) (m : GraphStore)
        (rounds : List RoundInfo),
        runClosure initRows db fuel = some (m, rounds) →
        ∀ ri ∈ rounds, ri.resolvedKeys ≠ []) := by
  intro h
  have h1 := h [⟨1, none, some 2, true⟩] [] 2
    [((1 : Int), (⟨[], some 2, true⟩ : Entry))] [⟨[2], [], [2]⟩] (by decide)
    ⟨[2], [], [2]⟩ (by decide)
  exact h1 rfl

/-- C4 amended: the closure loop terminates for every finite row store —
fuel `db.length + 2` always suffices — and each round either finds no
missing ids and stops, or fetches and strictly grows the store with
previously-unknown resolved ids, or resolves nothing, in which case the
next round finds no missing ids and stops. -/
theorem closure_terminates :
    (∀ (initRows db : List Row),
      (runClosure initRows db (db.length + 2)).isSome = true) ∧
    (∀ (db : List Row) (m : GraphStore) (added : List Int)
        (out : GraphStore ⊕ GraphStore × List Int × RoundInfo),
        closureStep db m added = some out →
        out = Sum.inl m ∨
        (∃ m₁ added1 ri, out = Sum.inr (m₁, added1, ri) ∧ ri.resolvedKeys ≠ [] ∧
          (∀ k ∈ ri.resolvedKeys, lookupEntry m k = none ∧
            (lookupEntry m₁ k).isSome = true) ∧
          (∀ k, (lookupEntry m k).isSome = true →
            (lookupEntry m₁ k).isSome = true)) ∨
        (∃ m₁ ri, out = Sum.inr (m₁, [], ri) ∧ ri.resolvedKeys = [] ∧
          closureStep db m₁ [] = some (Sum.inl m₁))) := by
  constructor
  · intro initRows db
    refine closureLoop_terminates ?_ ?_
    · intro a ha
      unfold keysOf at ha
      exact lookupEntry_isSome_iff.mpr ha
    · have := dbRowsLeft_le_length db (get_from_db initRows)
      omega
  · intro db m added out hs
    rcases out with mD | ⟨m₁, added1, ri⟩
    · rcases closureStep_inl hs with ⟨hmd, _⟩
      exact Or.inl (by rw [hmd])
    · rcases closureStep_inr hs with ⟨missing, hcm, _, hm₁, hadded1, hri⟩
      have habs := computeMissing_absent hcm
      rcases hku : keysOf (get_missing_from_db db missing) with _ | ⟨k0, krest⟩
      · refine Or.inr (Or.inr ⟨m₁, ri, ?_, ?_, ?_⟩)
        · rw [hadded1, hku]
        · rw [hri]
          simp [hku]
        · exact closureStep_nil_added db m₁
      · refine Or.inr (Or.inl ⟨m₁, added1, ri, rfl, ?_, ?_, ?_⟩)
        · rw [hri]
          simp only [hku]
          intro hn
          cases hn
        · intro k hk
          have hk2 : k ∈ keysOf (get_missing_from_db db missing) := by
            rw [hri] at hk
            simp only at hk
            exact hk
          constructor
          · exact habs k (keysOf_get_missing_subset hk2).1
          · rw [hm₁]
            exact isSome_extendStore_of_mem hk2
        · intro k hk
          rw [hm₁]
          exact isSome_extendStore_of_isSome hk
  
/-- Witness for C4: the termination bound applies to a concrete run, and the
round trichotomy applies to a concrete step. -/
theorem closure_terminates_witness :
    (runClosure [⟨1, none, some 2, true⟩] [] (([] : List Row).length + 2)).isSome
        = true ∧
      ((Sum.inl ([] : GraphStore) :
          GraphStore ⊕ GraphStore × List Int × RoundInfo) = Sum.inl [] ∨
        (∃ m₁ added1 ri, (Sum.inl ([] : GraphStore) :
            GraphStore ⊕ GraphStore × List Int × RoundInfo) =
              Sum.inr (m₁, added1, ri) ∧ ri.resolvedKeys ≠ [] ∧
          (∀ k ∈ ri.resolvedKeys, lookupEntry [] k = none ∧
            (lookupEntry m₁ k).isSome = true) ∧
          (∀ k, (lookupEntry [] k).isSome = true →
            (lookupEntry m₁ k).isSome = true)) ∨
        (∃ m₁ ri, (Sum.inl ([] : GraphStore) :
            GraphStore ⊕ GraphStore × List Int × RoundInfo) =
              Sum.inr (m₁, [], ri) ∧ ri.resolvedKeys = [] ∧
          closureStep [] m₁ [] = some (Sum.inl m₁))) :=
  ⟨closure_terminates.1 [⟨1, none, some 2, true⟩] [],
    closure_terminates.2 [] [] [] (Sum.inl []) rfl⟩

theorem closureLoop_rounds {db : List Row} : ∀ {fuel : Nat} {m : GraphStore}
    {added : List Int} {acc : List RoundInfo} {m' : GraphStore}
    {rounds : List RoundInfo},
    closureLoop db fuel m added acc = some (m', rounds) →
    (∀ ri ∈ rounds, ri ∈ acc ∨
      ((∀ k ∈ ri.resolvedKeys, ∃ r ∈ db, r.id = k) ∧
        (∀ u ∈ ri.unresolved, (¬ ∃ r ∈ db, r.id = u) ∧
          lookupEntry m' u = none))) ∧
    (∀ k, (lookupEntry m' k).isSome = true →
      (lookupEntry m k).isSome = true ∨ ∃ r ∈ db, r.id = k) := by
  intro fuel
  induction fuel with
  | zero =>
    intro m added acc m' rounds h
    cases h
  | succ f ih =>
    intro m added acc m' rounds h
    unfold closureLoop at h
    rcases hs : closureStep db m added with _ | mDone | ⟨m₁, added1, ri0⟩
    · rw [hs] at h
      cases h
    · rw [hs] at h
      have h2 : (some (mDone, acc) :
          Option (GraphStore × List RoundInfo)) = some (m', rounds) := h
      simp only [Option.some.injEq, Prod.mk.injEq] at h2
      rcases h2 with ⟨hm, hr⟩
      rcases closureStep_inl hs with ⟨hmd, _⟩
      have hmm : m' = m := by
        rw [← hm]
        exact hmd
      refine ⟨?_, ?_⟩
      · intro ri hri
        rw [← hr] at hri
        exact Or.inl hri
      · intro k hk
        rw [hmm] at hk
        exact Or.inl hk
    · rw [hs] at h
      have h2 : closureLoop db f m₁ added1 (acc ++ [ri0]) = some (m', rounds) := h
      rcases closureStep_inr hs with ⟨missing, hcm, _, hm₁, hadded1, hri0⟩
      have habs := computeMissing_absent hcm
      rcases ih h2 with ⟨ih1, ih2⟩
      have hkeys : ∀ k, (lookupEntry m' k).isSome = true →
          (lookupEntry m k).isSome = true ∨ ∃ r ∈ db, r.id = k := by
        intro k hk
        rcases ih2 k hk with h3 | h3
        · rw [hm₁] at h3
          rcases isSome_of_extendStore_isSome h3 with h4 | h4
          · exact Or.inl h4
          · exact Or.inr ⟨(keysOf_get_missing_subset h4).2.choose,
              (keysOf_get_missing_subset h4).2.choose_spec⟩
        · exact Or.inr h3
      refine ⟨?_, hkeys⟩
      intro ri hri
      rcases ih1 ri hri with hin | hP
      · rcases List.mem_append.mp hin with hin2 | hin2
        · exact Or.inl hin2
        · have hreq : ri = ri0 := List.mem_singleton.mp hin2
          subst hreq
          refine Or.inr ⟨?_, ?_⟩
          · intro k hk
            rw [hri0] at hk
            simp only at hk
            exact ⟨(keysOf_get_missing_subset hk).2.choose,
              (keysOf_get_missing_subset hk).2.choose_spec⟩
          · intro u hu
            rw [hri0] at hu
            simp only at hu
            have hu2 := List.mem_filter.mp hu
            have hu3 : u ∈ missing := hu2.1
            have hu4 : u ∉ keysOf (get_missing_from_db db missing) := by
              intro hmem
              have := list_contains_iff.mpr hmem
              rw [this] at hu2
              simp at hu2
            have norow : ¬ ∃ r ∈ db, r.id = u := by
              rintro ⟨r, hr, hid⟩
              exact hu4 (mem_keysOf_get_missing hu3 ⟨r, hr, hid⟩)
            refine ⟨norow, ?_⟩
            rcases hfin : lookupEntry m' u with _ | eu
            · rfl
            · exfalso
              have hsome : (lookupEntry m' u).isSome = true := by simp [hfin]
              rcases hkeys u hsome with h5 | h5
              · rw [habs u hu3] at h5
                cases h5
              · exact norow h5
      · exact Or.inr hP

/-- C8 counterexample: an id counted unresolved in one round can appear in
the fetch request of a later round (a node resolved in between references
it), so unresolved ids are not permanently excluded from later fetches. -/
theorem unresolved_retry_cex :
    ¬ (∀ (initRows db : List Row) (fuel : Nat) (m : GraphStore)
        (rounds : List RoundInfo) (i j : Nat) (ri rj : RoundInfo) (u : Int),
        runClosure initRows db fuel = some (m, rounds) →
        rounds.get? i = some ri → rounds.get? j = some rj → i < j →
        u ∈ ri.unresolved → u ∉ rj.missing) := by
  intro h
  exact h [⟨1, some 2, none, false⟩, ⟨1, some 3, none, false⟩]
    [⟨2, none, some 3, false⟩] 3
    [(1, ⟨[2, 3], none, false⟩), (2, ⟨[], some 3, false⟩)]
    [⟨[2, 3], [2], [3]⟩, ⟨[3], [], [3]⟩] 0 1
    ⟨[2, 3], [2], [3]⟩ ⟨[3], [], [3]⟩ 3
    (by decide) (by decide) (by decide) (by decide) (by decide) (by decide)

/-- C8 amended: an id counted unresolved in some round is permanently
treated as absent in the sense that no later (or earlier) round resolves it
and it is missing from the final Graph Store; it may however be included in
a later round's fetch request again. -/
theorem unresolved_never_resolves {initRows db : List Row} {fuel : Nat}
    {m : GraphStore} {rounds : List RoundInfo}
    (h : runClosure initRows db fuel = some (m, rounds)) :
    ∀ ri ∈ rounds, ∀ u ∈ ri.unresolved,
      (∀ rj ∈ rounds, u ∉ rj.resolvedKeys) ∧ lookupEntry m u = none := by
  unfold runClosure at h
  rcases closureLoop_rounds h with ⟨h1, _⟩
  intro ri hri u hu
  rcases h1 ri hri with hacc | ⟨_, hunres⟩
  · cases hacc
  · rcases hunres u hu with ⟨norow, habsent⟩
    refine ⟨?_, habsent⟩
    intro rj hrj hmem
    rcases h1 rj hrj with hacc | ⟨hres, _⟩
    · cases hacc
    · exact norow (hres u hmem)

/-- Witness for C8 amended: the theorem applies to a concrete run with a
dangling reference. -/
theorem unresolved_never_resolves_witness :
    runClosure [⟨1, some 2, none, false⟩, ⟨1, some 3, none, false⟩]
        [⟨2, none, some 3, false⟩] 3 =
      some ([(1, ⟨[2, 3], none, false⟩), (2, ⟨[], some 3, false⟩)],
        [⟨[2, 3], [2], [3]⟩, ⟨[3], [], [3]⟩]) ∧
      ∀ ri ∈ ([⟨[2, 3], [2], [3]⟩, ⟨[3], [], [3]⟩] : List RoundInfo),
        ∀ u ∈ ri.unresolved,
        (∀ rj ∈ ([⟨[2, 3], [2], [3]⟩, ⟨[3], [], [3]⟩] : List RoundInfo),
          u ∉ rj.resolvedKeys) ∧
          lookupEntry [(1, ⟨[2, 3], none, false⟩), (2, ⟨[], some 3, false⟩)] u =
            none :=
  ⟨by decide,
    @unresolved_never_resolves [⟨1, some 2, none, false⟩, ⟨1, some 3, none, false⟩]
      [⟨2, none, some 3, false⟩] 3
      [(1, ⟨[2, 3], none, false⟩), (2, ⟨[], some 3, false⟩)]
      [⟨[2, 3], [2], [3]⟩, ⟨[3], [], [3]⟩] (by decide)⟩

theorem reportTotal_eq (s : GraphStore) :
    reportTotal s = (reportIds s).length := by
  unfold reportTotal reportIds
  rw [List.countP_eq_length_filter, List.length_map]

/-- C9 counterexample: the final report does not state the dangling-reference
total: no function of the final report can recover it, because two runs with
different dangling totals produce identical final reports (the per-round
counts are printed as they happen and never accumulated). -/
theorem final_report_no_dangling_cex :
    ¬ ∃ f : FinalReport → Nat,
      ∀ (initRows db : List Row) (fuel : Nat) (m : GraphStore)
        (rounds : List RoundInfo) (rep : FinalReport),
        runAll initRows db fuel = some (.ok (m, rounds, rep)) →
        f rep = specDanglingTotal rounds := by
  rintro ⟨f, hf⟩
  have hA := hf [⟨1, none, some 2, false⟩] [] 2
    [((1 : Int), (⟨[], some 2, false⟩ : Entry))] [⟨[2], [], [2]⟩] ⟨1, 1⟩ rfl
  have hB := hf [⟨1, none, none, false⟩] [] 1
    [((1 : Int), (⟨[], none, false⟩ : Entry))] [] ⟨1, 1⟩ rfl
  have h1 : specDanglingTotal [(⟨[2], [], [2]⟩ : RoundInfo)] = 1 := rfl
  have h2 : specDanglingTotal ([] : List RoundInfo) = 0 := rfl
  rw [h1] at hA
  rw [h2] at hB
  rw [hA] at hB
  exact Nat.one_ne_zero hB

/-- C9 amended: the per-round unresolved counts are emitted round by round
and are not accumulated; the final report states exactly the total
state-group count and the unreferenced-node count, and every id counted
unresolved in any round is absent from the final Graph Store. -/
theorem report_contents {initRows db : List Row} {fuel : Nat}
    {m' : GraphStore} {rounds : List RoundInfo} {rep : FinalReport}
    (h : runAll initRows db fuel = some (.ok (m', rounds, rep))) :
    rep = ⟨m'.length, (reportIds m').length⟩ ∧
      ∀ ri ∈ rounds, ∀ u ∈ ri.unresolved, lookupEntry m' u = none := by
  unfold runAll at h
  rcases hrc : runClosure initRows db fuel with _ | ⟨mc, rounds0⟩
  · rw [hrc] at h
    cases h
  · rw [hrc] at h
    have h2 : (some (match propagateAll mc with
        | .error e => .error e
        | .ok mp => .ok (mp, rounds0, ⟨mp.length, reportTotal mp⟩)) :
        Option (Except PropFail (GraphStore × List RoundInfo × FinalReport))) =
        some (.ok (m', rounds, rep)) := h
    rcases hp : propagateAll mc with e | mp
    · rw [hp] at h2
      cases h2
    · rw [hp] at h2
      have h3 : (Except.ok (mp, rounds0, (⟨mp.length, reportTotal mp⟩ :
          FinalReport)) : Except PropFail _) = .ok (m', rounds, rep) := by
        simpa using h2
      simp only [Except.ok.injEq, Prod.mk.injEq] at h3
      rcases h3 with ⟨hmp, hrounds, hrep⟩
      constructor
      · rw [← hrep, ← hmp, reportTotal_eq]
      · intro ri hri u hu
        rw [← hrounds] at hri
        have habs : lookupEntry mc u = none := by
          have hloop := hrc
          unfold runClosure at hloop
          rcases closureLoop_rounds hloop with ⟨h4, _⟩
          rcases h4 ri hri with hacc | ⟨_, hunres⟩
          · cases hacc
          · exact (hunres u hu).2
        have hkey : hasKeyB m' u = hasKeyB mc u := by
          rw [← hmp]
          exact (propagate_facts hp).2.1 u
        have habs2 : hasKeyB mc u = false := by
          unfold hasKeyB
          rw [habs]
          rfl
        rw [habs2] at hkey
        unfold hasKeyB at hkey
        rcases hfin : lookupEntry m' u with _ | eu
        · rfl
        · rw [hfin] at hkey
          cases hkey

/-- Witness for C9 amended: the theorem applies to a concrete run with one
dangling reference. -/
theorem report_contents_witness :
    runAll [⟨1, none, some 2, false⟩] [] 2 =
      some (.ok ([((1 : Int), (⟨[], some 2, false⟩ : Entry))],
        [⟨[2], [], [2]⟩], ⟨1, 1⟩)) ∧
      ((⟨1, 1⟩ : FinalReport) =
        ⟨([((1 : Int), (⟨[], some 2, false⟩ : Entry))] : GraphStore).length,
          (reportIds [((1 : Int), (⟨[], some 2, false⟩ : Entry))]).length⟩ ∧
      ∀ ri ∈ ([⟨[2], [], [2]⟩] : List RoundInfo), ∀ u ∈ ri.unresolved,
        lookupEntry [((1 : Int), (⟨[], some 2, false⟩ : Entry))] u = none) :=
  ⟨rfl,
    @report_contents [⟨1, none, some 2, false⟩] [] 2
      [((1 : Int), (⟨[], some 2, false⟩ : Entry))] [⟨[2], [], [2]⟩]
      ⟨1, 1⟩ rfl⟩

/-- C3 counterexample: when a propagation walk reaches a parent id recorded
as dangling by the closure phase, the run is aborted (the lookup panics),
instead of the walk stopping and propagation continuing. -/
theorem dangling_walk_fatal_cex :
    ¬ (∀ (initRows db : List Row) (fuel : Nat) (m : GraphStore)
        (rounds : List RoundInfo),
        runClosure initRows db fuel = some (m, rounds) →
        ∀ e, propagateAll m ≠ .error e) := by
  intro h
  exact h [⟨1, none, some 2, true⟩] [] 2
    [((1 : Int), (⟨[], some 2, true⟩ : Entry))] [⟨[2], [], [2]⟩] (by decide)
    (.missingEntry 2) rfl

/-- C3 amended: when the walk's cursor reaches a parent id with no Graph
Store entry, the pass fails at that point with the missing id (modelling the
`unwrap` panic) and the remaining nodes are not processed: the condition is
fatal. -/
theorem dangling_walk_aborts {s : GraphStore} {k : Int} {e : Entry} {p : Int}
    (ks : List Int) (hl : lookupEntry s k = some e)
    (hr : e.is_referenced = true) (hp : e.prev_state_group = some p)
    (habs : lookupEntry s p = none) :
    propagate s (k :: ks) = .error (.missingEntry p) := by
  unfold propagate
  rw [hl]
  show (if e.is_referenced = true then
      (match walk (s.length + 1) s e.prev_state_group with
        | .stopped _ (.absentParent i) => Except.error (PropFail.missingEntry i)
        | .stopped s₁ .noParent => propagate s₁ ks
        | .stopped s₁ .alreadyLive => propagate s₁ ks
        | .outOfFuel _ => Except.error PropFail.fuelExhausted)
      else propagate s ks) = Except.error (PropFail.missingEntry p)
  rw [hr]
  simp only [if_true]
  rw [hp]
  have hw : walk (s.length + 1) s (some p) = .stopped s (.absentParent p) := by
    show (match lookupEntry s p with
      | none => WalkOut.stopped s (WalkStop.absentParent p)
      | some e =>
        if e.is_referenced then WalkOut.stopped s WalkStop.alreadyLive
        else walk s.length (markRef s p) e.prev_state_group) =
      WalkOut.stopped s (WalkStop.absentParent p)
    rw [habs]
  rw [hw]

/-- Witness for C3 amended: the theorem applies at a concrete store with a
referenced node whose parent id is absent. -/
theorem dangling_walk_aborts_witness :
    lookupEntry [((1 : Int), (⟨[], some 2, true⟩ : Entry))] 1 =
        some ⟨[], some 2, true⟩ ∧
      (⟨[], some 2, true⟩ : Entry).is_referenced = true ∧
      (⟨[], some 2, true⟩ : Entry).prev_state_group = some 2 ∧
      lookupEntry [((1 : Int), (⟨[], some 2, true⟩ : Entry))] 2 = none ∧
      propagate [((1 : Int), (⟨[], some 2, true⟩ : Entry))] [1] =
        .error (.missingEntry 2) :=
  ⟨by decide, rfl, rfl, by decide,
    @dangling_walk_aborts [((1 : Int), (⟨[], some 2, true⟩ : Entry))] 1
      ⟨[], some 2, true⟩ 2 [] (by decide) rfl rfl (by decide)⟩

theorem lookupEntry_of_mem_of_sorted {s : GraphStore}
    (hs : List.Pairwise (fun a b => a < b) (keysOf s)) {k : Int} {e : Entry}
    (hmem : (k, e) ∈ s) : lookupEntry s k = some e := by
  induction s with
  | nil => cases hmem
  | cons p rest ih =>
    obtain ⟨a, b⟩ := p
    have hs0 : List.Pairwise (fun x y => x < y) (a :: keysOf rest) := by
      have hh := hs
      unfold keysOf at hh
      rw [List.map_cons] at hh
      exact hh
    have hs1 := List.pairwise_cons.mp hs0
    rcases List.mem_cons.mp hmem with h1 | h1
    · have hab : a = k ∧ b = e := by
        have := h1
        simp only [Prod.mk.injEq] at this
        exact ⟨this.1.symm, this.2.symm⟩
      rw [lookupEntry_cons, if_pos hab.1, hab.2]
    · have hk : k ∈ keysOf rest := List.mem_map.mpr ⟨(k, e), h1, rfl⟩
      have hlt := hs1.1 k hk
      rw [lookupEntry_cons, if_neg (ne_of_lt hlt)]
      exact ih hs1.2 h1

/-- C10: on every final Graph Store (keys in strictly ascending order, the
`BTreeMap` invariant), the Reporter emits exactly the ids of the nodes left
unreferenced, in strictly increasing order (hence each exactly once), and
the reported total equals the number of emitted ids. -/
theorem reporter_sorted_complete (s : GraphStore)
    (hsorted : List.Pairwise (fun a b => a < b) (keysOf s)) :
    List.Pairwise (fun a b => a < b) (reportIds s) ∧
      (∀ k, k ∈ reportIds s ↔
        ∃ e, lookupEntry s k = some e ∧ e.is_referenced = false) ∧
      reportTotal s = (reportIds s).length := by
  refine ⟨?_, ?_, reportTotal_eq s⟩
  · have hsub : List.Sublist (s.filter (fun p => !p.2.is_referenced)) s :=
      List.filter_sublist s
    have hsub2 : List.Sublist (reportIds s) (keysOf s) :=
      List.Sublist.map Prod.fst hsub
    exact List.Pairwise.sublist hsub2 hsorted
  · intro k
    constructor
    · intro hk
      unfold reportIds at hk
      rcases List.mem_map.mp hk with ⟨p, hp, hpk⟩
      have hpf := List.mem_filter.mp hp
      refine ⟨p.2, ?_, ?_⟩
      · have hmem : (k, p.2) ∈ s := by
          rw [← hpk]
          simpa using hpf.1
        exact lookupEntry_of_mem_of_sorted hsorted hmem
      · simpa using hpf.2
    · rintro ⟨e, he, href⟩
      unfold reportIds
      refine List.mem_map.mpr ⟨(k, e), ?_, rfl⟩
      refine List.mem_filter.mpr ⟨lookupEntry_mem he, ?_⟩
      simp [href]

/-- Witness for C10: the theorem applies to a concrete sorted store. -/
theorem reporter_sorted_complete_witness :
    List.Pairwise (fun a b => a < b)
        (keysOf [((1 : Int), (⟨[], none, true⟩ : Entry)),
          ((2 : Int), (⟨[], none, false⟩ : Entry))]) ∧
      (List.Pairwise (fun a b => a < b)
          (reportIds [((1 : Int), (⟨[], none, true⟩ : Entry)),
            ((2 : Int), (⟨[], none, false⟩ : Entry))]) ∧
        (∀ k, k ∈ reportIds [((1 : Int), (⟨[], none, true⟩ : Entry)),
            ((2 : Int), (⟨[], none, false⟩ : Entry))] ↔
          ∃ e, lookupEntry [((1 : Int), (⟨[], none, true⟩ : Entry)),
            ((2 : Int), (⟨[], none, false⟩ : Entry))] k = some e ∧
            e.is_referenced = false) ∧
        reportTotal [((1 : Int), (⟨[], none, true⟩ : Entry)),
          ((2 : Int), (⟨[], none, false⟩ : Entry))] =
          (reportIds [((1 : Int), (⟨[], none, true⟩ : Entry)),
            ((2 : Int), (⟨[], none, false⟩ : Entry))]).length) :=
  ⟨by decide,
    reporter_sorted_complete
      [((1 : Int), (⟨[], none, true⟩ : Entry)),
        ((2 : Int), (⟨[], none, false⟩ : Entry))] (by decide)⟩

end StateGroups
